import Mathlib

/-!
Verification of the per-period double-auction matching algorithm of
`order_book_basic.py` (`run_double_auction`), shallowly embedded over `ℚ`.

The embedding follows the source line by line:
* prices and energy quantities are modelled as rationals;
* the buy/sell books are lists of `(agent, remaining quantity)` pairs
  built from the signed net quantities, in column order;
* the FCFS matching `while` loop is a step function `matchStep`
  iterated by `matchLoopF` with enough fuel for the loop measure
  `(|buys| - buyer_idx) + (|sells| - seller_idx)`;
* grid settlement folds over the orders at or past each cursor.
-/

namespace P2P

/-- Epsilon threshold `1e-9` used by the source for cursor advancement
("Using small epsilon for float comparison safety"). -/
def eps : ℚ := 1 / 1000000000

/-- An order-book entry: agent id together with its remaining quantity,
mirroring the `[Agent ID, Quantity Remaining]` lists of the source. -/
structure Order where
  agent : String
  qty : ℚ
  deriving DecidableEq, Repr

/-- One executed peer-to-peer transaction of the matching loop. -/
structure Trade where
  buyer : String
  seller : String
  qty : ℚ
  price : ℚ
  deriving DecidableEq, Repr

/-- Ledger update of one P2P transaction, exactly as the source does it:
first `period_financials[buyer_id] -= trade_qty * p2p_price`, then
`period_financials[seller_id] += trade_qty * p2p_price`. -/
def tradeFin (t : Trade) (fin : String → ℚ) : String → ℚ :=
  Function.update (Function.update fin t.buyer (fin t.buyer - t.qty * t.price)) t.seller
    ((Function.update fin t.buyer (fin t.buyer - t.qty * t.price)) t.seller + t.qty * t.price)

/-- The full state of the matching loop: both books (with remaining
quantities mutated in place), both cursors, the period ledger and the
transactions executed so far. -/
structure MatchState where
  buys : List Order
  sells : List Order
  bi : Nat
  si : Nat
  fin : String → ℚ
  trades : List Trade

/-- One iteration of the `while` body: read the orders at the cursors,
trade the minimum of the two remaining quantities at the period price,
update the ledger, decrement both orders, and advance each cursor whose
order fell below `eps`. -/
def matchStep (price : ℚ) (st : MatchState) : MatchState :=
  let b := st.buys.getD st.bi ⟨"", 0⟩
  let s := st.sells.getD st.si ⟨"", 0⟩
  let tq := min b.qty s.qty
  { buys := st.buys.set st.bi ⟨b.agent, b.qty - tq⟩
    sells := st.sells.set st.si ⟨s.agent, s.qty - tq⟩
    bi := if b.qty - tq < eps then st.bi + 1 else st.bi
    si := if s.qty - tq < eps then st.si + 1 else st.si
    fin := tradeFin ⟨b.agent, s.agent, tq, price⟩ st.fin
    trades := st.trades ++ [⟨b.agent, s.agent, tq, price⟩] }

/-- Fuelled iteration of `matchStep` under the loop guard
`buyer_idx < len(buy_orders) and seller_idx < len(sell_orders)`. -/
def matchLoopF : Nat → ℚ → MatchState → MatchState
  | 0, _, st => st
  | fuel + 1, price, st =>
    if st.bi < st.buys.length ∧ st.si < st.sells.length then
      matchLoopF fuel price (matchStep price st)
    else st

/-- Loop measure: total number of orders not yet passed by a cursor.
Every iteration strictly decreases it, so it bounds the iteration count. -/
def measure (st : MatchState) : Nat :=
  (st.buys.length - st.bi) + (st.sells.length - st.si)

/-- The matching `while` loop: iterate `matchStep` until the guard fails.
`measure st` fuel always suffices (`matchLoopF_congr`, `matchLoop_post`). -/
def matchLoop (price : ℚ) (st : MatchState) : MatchState :=
  matchLoopF (measure st) price st

/-- P2P clearing price rule of the source: `fit + alpha * (tou - fit)`. -/
def p2pPrice (alpha fit tou : ℚ) : ℚ := fit + alpha * (tou - fit)

/-- Buy book construction: every agent with `quantity > 0`, in column
order, with its quantity. -/
def buildBuyOrders (agents : List (String × ℚ)) : List Order :=
  agents.filterMap fun aq => if 0 < aq.2 then some ⟨aq.1, aq.2⟩ else none

/-- Sell book construction: every agent not a buyer with `quantity < 0`,
in column order, with the absolute value of its quantity. -/
def buildSellOrders (agents : List (String × ℚ)) : List Order :=
  agents.filterMap fun aq =>
    if 0 < aq.2 then none else if aq.2 < 0 then some ⟨aq.1, |aq.2|⟩ else none

/-- Grid import settlement: every remaining buy order with
`rem_qty > 0` pays `rem_qty * tou` (a debit). -/
def settleBuyRemainder (tou : ℚ) (rest : List Order) (fin : String → ℚ) : String → ℚ :=
  rest.foldl
    (fun f o => if 0 < o.qty then Function.update f o.agent (f o.agent - o.qty * tou) else f) fin

/-- Grid export settlement: every remaining sell order with
`rem_qty > 0` earns `rem_qty * fit` (a credit). -/
def settleSellRemainder (fit : ℚ) (rest : List Order) (fin : String → ℚ) : String → ℚ :=
  rest.foldl
    (fun f o => if 0 < o.qty then Function.update f o.agent (f o.agent + o.qty * fit) else f) fin

/-- Input of one trading period: export price (`fit`), import price
(`tou`) and the column-ordered signed net quantities. -/
structure PeriodInput where
  fit : ℚ
  tou : ℚ
  agents : List (String × ℚ)

/-- Result of one trading period: the executed trades, the final books
and cursors, the ledger right after matching (`pfin`) and the ledger
after grid settlement (`fin`). -/
structure PeriodResult where
  trades : List Trade
  buys : List Order
  sells : List Order
  bi : Nat
  si : Nat
  pfin : String → ℚ
  fin : String → ℚ

/-- Initial loop state of a period: fresh books, cursors at `0`, the
all-zero ledger `period_financials`, and no trades yet. -/
def initState (inp : PeriodInput) : MatchState :=
  ⟨buildBuyOrders inp.agents, buildSellOrders inp.agents, 0, 0, fun _ => 0, []⟩

/-- One full trading period of `run_double_auction`: build the books,
run the FCFS matching loop starting from ledger `0`, then settle the
orders at or past each cursor against the grid. -/
def runPeriod (alpha : ℚ) (inp : PeriodInput) : PeriodResult :=
  let price := p2pPrice alpha inp.fit inp.tou
  let m := matchLoop price (initState inp)
  ⟨m.trades, m.buys, m.sells, m.bi, m.si, m.fin,
    settleSellRemainder inp.fit (m.sells.drop m.si)
      (settleBuyRemainder inp.tou (m.buys.drop m.bi) m.fin)⟩

/-- Sum of remaining quantities of a book. -/
def sumQty (l : List Order) : ℚ := (l.map Order.qty).sum

/-- Sum of the quantities of a list of trades. -/
def totalTradeQty (trades : List Trade) : ℚ := (trades.map Trade.qty).sum

/-- Sum of the absolute net quantities of the period input. -/
def totalAbsNet (agents : List (String × ℚ)) : ℚ := (agents.map fun aq => |aq.2|).sum

/-- Total quantity the grid settlement attributes to agent `a` in a
remainder list (only orders with positive remaining quantity count). -/
def agentQty (a : String) (rest : List Order) : ℚ :=
  (rest.map fun o => if o.agent = a ∧ 0 < o.qty then o.qty else 0).sum

/-- The alpha-independent part of a trade: who traded with whom and how much. -/
def tradeKey (t : Trade) : String × String × ℚ := (t.buyer, t.seller, t.qty)

/-- The zero ledger every period starts from. -/
def zeroFin : String → ℚ := fun _ => 0

/-! ## Core facts about the matching loop -/

theorem eps_pos : 0 < eps := by norm_num [eps]

/-- In every iteration the order on the min side of the fill drops below
the epsilon threshold, so its cursor advances. -/
theorem matchStep_advances (st : MatchState) :
    (st.buys.getD st.bi ⟨"", 0⟩).qty
        - min (st.buys.getD st.bi ⟨"", 0⟩).qty (st.sells.getD st.si ⟨"", 0⟩).qty < eps ∨
      (st.sells.getD st.si ⟨"", 0⟩).qty
        - min (st.buys.getD st.bi ⟨"", 0⟩).qty (st.sells.getD st.si ⟨"", 0⟩).qty < eps := by
  rcases le_total (st.buys.getD st.bi ⟨"", 0⟩).qty (st.sells.getD st.si ⟨"", 0⟩).qty with hle | hle
  · left; rw [min_eq_left hle]; simpa using eps_pos
  · right; rw [min_eq_right hle]; simpa using eps_pos

theorem measure_matchStep_lt (price : ℚ) (st : MatchState)
    (h : st.bi < st.buys.length ∧ st.si < st.sells.length) :
    measure (matchStep price st) < measure st := by
  obtain ⟨h1, h2⟩ := h
  have hadv := matchStep_advances st
  simp only [measure, matchStep, List.length_set]
  rcases hadv with h | h
  · rw [if_pos h]
    split <;> omega
  · rw [if_pos h]
    split <;> omega

theorem matchLoopF_of_stop (price : ℚ) (st : MatchState)
    (h : ¬(st.bi < st.buys.length ∧ st.si < st.sells.length)) :
    ∀ fuel, matchLoopF fuel price st = st := by
  intro fuel
  cases fuel with
  | zero => rfl
  | succ fuel => simp [matchLoopF, if_neg h]

theorem guard_measure_pos (st : MatchState)
    (h : st.bi < st.buys.length ∧ st.si < st.sells.length) : 0 < measure st := by
  obtain ⟨h1, h2⟩ := h
  simp only [measure]
  omega

/-- Any two sufficient amounts of fuel give the same loop result. -/
theorem matchLoopF_congr (price : ℚ) :
    ∀ (f g : Nat) (st : MatchState), measure st ≤ f → measure st ≤ g →
      matchLoopF f price st = matchLoopF g price st := by
  intro f
  induction f with
  | zero =>
    intro g st hf _
    have hstop : ¬(st.bi < st.buys.length ∧ st.si < st.sells.length) := by
      intro hg
      have := guard_measure_pos st hg
      omega
    rw [matchLoopF_of_stop price st hstop, matchLoopF_of_stop price st hstop]
  | succ f ih =>
    intro g st hf hg
    by_cases hguard : st.bi < st.buys.length ∧ st.si < st.sells.length
    · cases g with
      | zero =>
        have := guard_measure_pos st hguard
        omega
      | succ g =>
        simp only [matchLoopF, if_pos hguard]
        have hlt := measure_matchStep_lt price st hguard
        exact ih g (matchStep price st) (by omega) (by omega)
    · rw [matchLoopF_of_stop price st hguard, matchLoopF_of_stop price st hguard]

/-- The loop really is a `while` loop: if the guard holds, one step runs. -/
theorem matchLoop_step (price : ℚ) (st : MatchState)
    (h : st.bi < st.buys.length ∧ st.si < st.sells.length) :
    matchLoop price st = matchLoop price (matchStep price st) := by
  have hpos := guard_measure_pos st h
  have hlt := measure_matchStep_lt price st h
  rw [matchLoop, matchLoop]
  cases hmk : measure st with
  | zero => omega
  | succ k =>
    simp only [matchLoopF, if_pos h]
    exact matchLoopF_congr price k (measure (matchStep price st)) (matchStep price st)
      (by omega) le_rfl

/-- If the guard fails, the loop stops immediately. -/
theorem matchLoop_stop (price : ℚ) (st : MatchState)
    (h : ¬(st.bi < st.buys.length ∧ st.si < st.sells.length)) :
    matchLoop price st = st :=
  matchLoopF_of_stop price st h (measure st)

/-- Induction principle for reasoning about the matching loop. -/
theorem matchLoop_ind (price : ℚ) (P : MatchState → MatchState → Prop)
    (base : ∀ st, ¬(st.bi < st.buys.length ∧ st.si < st.sells.length) → P st st)
    (step : ∀ st r, (st.bi < st.buys.length ∧ st.si < st.sells.length) →
      P (matchStep price st) r → P st r) :
    ∀ st, P st (matchLoop price st) := by
  suffices h : ∀ n st, measure st ≤ n → P st (matchLoop price st) by
    exact fun st => h (measure st) st le_rfl
  intro n
  induction n with
  | zero =>
    intro st hm
    have hstop : ¬(st.bi < st.buys.length ∧ st.si < st.sells.length) := by
      intro hg
      have := guard_measure_pos st hg
      omega
    rw [matchLoop_stop price st hstop]
    exact base st hstop
  | succ n ih =>
    intro st hm
    by_cases hg : st.bi < st.buys.length ∧ st.si < st.sells.length
    · rw [matchLoop_step price st hg]
      have hlt := measure_matchStep_lt price st hg
      exact step st _ hg (ih (matchStep price st) (by omega))
    · rw [matchLoop_stop price st hg]
      exact base st hg

/-- After the loop stops, the guard is false: one of the two cursors has
reached the end of its book. -/
theorem matchLoop_post (price : ℚ) (st : MatchState) :
    ¬((matchLoop price st).bi < (matchLoop price st).buys.length ∧
      (matchLoop price st).si < (matchLoop price st).sells.length) := by
  have := matchLoop_ind price
    (fun _ r => ¬(r.bi < r.buys.length ∧ r.si < r.sells.length))
    (fun st hstop => hstop) (fun st r _ hr => hr) st
  exact this

/-! ## Invariants preserved by the matching loop -/

theorem matchLoop_length (price : ℚ) (st : MatchState) :
    (matchLoop price st).buys.length = st.buys.length ∧
      (matchLoop price st).sells.length = st.sells.length := by
  refine matchLoop_ind price
    (fun st r => r.buys.length = st.buys.length ∧ r.sells.length = st.sells.length)
    (fun st _ => ⟨rfl, rfl⟩) ?_ st
  intro st r hg ih
  simpa [matchStep] using ih

theorem matchLoop_cursor_mono (price : ℚ) (st : MatchState) :
    st.bi ≤ (matchLoop price st).bi ∧ st.si ≤ (matchLoop price st).si := by
  refine matchLoop_ind price (fun st r => st.bi ≤ r.bi ∧ st.si ≤ r.si)
    (fun st _ => ⟨le_rfl, le_rfl⟩) ?_ st
  intro st r hg ih
  simp only [matchStep] at ih
  obtain ⟨ih1, ih2⟩ := ih
  constructor
  · refine le_trans ?_ ih1
    split <;> omega
  · refine le_trans ?_ ih2
    split <;> omega

theorem matchLoop_cursor_bound (price : ℚ) (st : MatchState)
    (hb : st.bi ≤ st.buys.length) (hs : st.si ≤ st.sells.length) :
    (matchLoop price st).bi ≤ (matchLoop price st).buys.length ∧
      (matchLoop price st).si ≤ (matchLoop price st).sells.length := by
  refine matchLoop_ind price
    (fun st r => st.bi ≤ st.buys.length → st.si ≤ st.sells.length →
      r.bi ≤ r.buys.length ∧ r.si ≤ r.sells.length)
    (fun st _ h1 h2 => ⟨h1, h2⟩) ?_ st hb hs
  intro st r hg ih _ _
  obtain ⟨hg1, hg2⟩ := hg
  apply ih <;> (simp only [matchStep, List.length_set]; split <;> omega)

/-- When the loop ends, at least one book is fully exhausted. -/
theorem matchLoop_exhausts (price : ℚ) (st : MatchState)
    (hb : st.bi ≤ st.buys.length) (hs : st.si ≤ st.sells.length) :
    (matchLoop price st).bi = (matchLoop price st).buys.length ∨
      (matchLoop price st).si = (matchLoop price st).sells.length := by
  have hpost := matchLoop_post price st
  have hbd := matchLoop_cursor_bound price st hb hs
  omega

theorem matchLoop_stable_before (price : ℚ) (st : MatchState) :
    (∀ i, i < st.bi → (matchLoop price st).buys[i]? = st.buys[i]?) ∧
      (∀ i, i < st.si → (matchLoop price st).sells[i]? = st.sells[i]?) := by
  refine matchLoop_ind price (fun st r =>
      (∀ i, i < st.bi → r.buys[i]? = st.buys[i]?) ∧
        (∀ i, i < st.si → r.sells[i]? = st.sells[i]?))
    (fun st _ => ⟨fun i _ => rfl, fun i _ => rfl⟩) ?_ st
  intro st r hg ih
  obtain ⟨ih1, ih2⟩ := ih
  constructor
  · intro i hi
    rw [ih1 i (by simp only [matchStep]; split <;> omega)]
    simp only [matchStep]
    exact List.getElem?_set_ne (by omega)
  · intro i hi
    rw [ih2 i (by simp only [matchStep]; split <;> omega)]
    simp only [matchStep]
    exact List.getElem?_set_ne (by omega)

/-- Orders at or past the cursors keep strictly positive remaining
quantity throughout the loop. -/
theorem matchLoop_posFrom (price : ℚ) (st : MatchState)
    (hb : ∀ i o, st.bi ≤ i → st.buys[i]? = some o → 0 < o.qty)
    (hs : ∀ i o, st.si ≤ i → st.sells[i]? = some o → 0 < o.qty) :
    (∀ i o, (matchLoop price st).bi ≤ i → (matchLoop price st).buys[i]? = some o → 0 < o.qty) ∧
      (∀ i o, (matchLoop price st).si ≤ i → (matchLoop price st).sells[i]? = some o → 0 < o.qty) := by
  refine matchLoop_ind price (fun st r =>
      (∀ i o, st.bi ≤ i → st.buys[i]? = some o → 0 < o.qty) →
        (∀ i o, st.si ≤ i → st.sells[i]? = some o → 0 < o.qty) →
        ((∀ i o, r.bi ≤ i → r.buys[i]? = some o → 0 < o.qty) ∧
          (∀ i o, r.si ≤ i → r.sells[i]? = some o → 0 < o.qty)))
    (fun st _ h1 h2 => ⟨h1, h2⟩) ?_ st hb hs
  intro st r hg ih hb hs
  obtain ⟨hg1, hg2⟩ := hg
  apply ih
  · intro i o hi ho
    simp only [matchStep] at hi ho
    by_cases hib : i = st.bi
    · subst hib
      rw [List.getElem?_set_eq_of_lt _ hg1] at ho
      have hcur : ¬((st.buys.getD st.bi ⟨"", 0⟩).qty
          - min (st.buys.getD st.bi ⟨"", 0⟩).qty (st.sells.getD st.si ⟨"", 0⟩).qty < eps) := by
        intro hlt
        rw [if_pos hlt] at hi
        omega
      cases ho
      have := eps_pos
      simp only [not_lt] at hcur
      dsimp only
      linarith
    · rw [List.getElem?_set_ne (Ne.symm hib) ] at ho
      refine hb i o ?_ ho
      rcases Nat.lt_or_ge st.bi i with h | h
      · omega
      · exfalso
        have hib2 : i < st.bi := by omega
        split at hi <;> omega
  · intro i o hi ho
    simp only [matchStep] at hi ho
    by_cases hib : i = st.si
    · subst hib
      rw [List.getElem?_set_eq_of_lt _ hg2] at ho
      have hcur : ¬((st.sells.getD st.si ⟨"", 0⟩).qty
          - min (st.buys.getD st.bi ⟨"", 0⟩).qty (st.sells.getD st.si ⟨"", 0⟩).qty < eps) := by
        intro hlt
        rw [if_pos hlt] at hi
        omega
      cases ho
      have := eps_pos
      simp only [not_lt] at hcur
      dsimp only
      linarith
    · rw [List.getElem?_set_ne (Ne.symm hib)] at ho
      refine hs i o ?_ ho
      rcases Nat.lt_or_ge st.si i with h | h
      · omega
      · exfalso
        have hib2 : i < st.si := by omega
        split at hi <;> omega

/-- Orders strictly before a cursor were passed with a residue in
`[0, eps)`: non-negative but below the epsilon threshold. -/
theorem matchLoop_smallBefore (price : ℚ) (st : MatchState)
    (hb : ∀ i o, i < st.bi → st.buys[i]? = some o → 0 ≤ o.qty ∧ o.qty < eps)
    (hs : ∀ i o, i < st.si → st.sells[i]? = some o → 0 ≤ o.qty ∧ o.qty < eps) :
    (∀ i o, i < (matchLoop price st).bi → (matchLoop price st).buys[i]? = some o →
        0 ≤ o.qty ∧ o.qty < eps) ∧
      (∀ i o, i < (matchLoop price st).si → (matchLoop price st).sells[i]? = some o →
        0 ≤ o.qty ∧ o.qty < eps) := by
  refine matchLoop_ind price (fun st r =>
      (∀ i o, i < st.bi → st.buys[i]? = some o → 0 ≤ o.qty ∧ o.qty < eps) →
        (∀ i o, i < st.si → st.sells[i]? = some o → 0 ≤ o.qty ∧ o.qty < eps) →
        ((∀ i o, i < r.bi → r.buys[i]? = some o → 0 ≤ o.qty ∧ o.qty < eps) ∧
          (∀ i o, i < r.si → r.sells[i]? = some o → 0 ≤ o.qty ∧ o.qty < eps)))
    (fun st _ h1 h2 => ⟨h1, h2⟩) ?_ st hb hs
  intro st r hg ih hb hs
  obtain ⟨hg1, hg2⟩ := hg
  apply ih
  · intro i o hi ho
    simp only [matchStep] at hi ho
    by_cases hib : i = st.bi
    · subst hib
      rw [List.getElem?_set_eq_of_lt _ hg1] at ho
      have hcur : (st.buys.getD st.bi ⟨"", 0⟩).qty
          - min (st.buys.getD st.bi ⟨"", 0⟩).qty (st.sells.getD st.si ⟨"", 0⟩).qty < eps := by
        by_contra hlt
        rw [if_neg hlt] at hi
        omega
      cases ho
      refine ⟨?_, ?_⟩ <;> dsimp only
      · have := min_le_left (st.buys.getD st.bi ⟨"", 0⟩).qty (st.sells.getD st.si ⟨"", 0⟩).qty
        linarith
      · exact hcur
    · rw [List.getElem?_set_ne (Ne.symm hib)] at ho
      refine hb i o ?_ ho
      split at hi <;> omega
  · intro i o hi ho
    simp only [matchStep] at hi ho
    by_cases hib : i = st.si
    · subst hib
      rw [List.getElem?_set_eq_of_lt _ hg2] at ho
      have hcur : (st.sells.getD st.si ⟨"", 0⟩).qty
          - min (st.buys.getD st.bi ⟨"", 0⟩).qty (st.sells.getD st.si ⟨"", 0⟩).qty < eps := by
        by_contra hlt
        rw [if_neg hlt] at hi
        omega
      cases ho
      refine ⟨?_, ?_⟩ <;> dsimp only
      · have := min_le_right (st.buys.getD st.bi ⟨"", 0⟩).qty (st.sells.getD st.si ⟨"", 0⟩).qty
        linarith
      · exact hcur
    · rw [List.getElem?_set_ne (Ne.symm hib)] at ho
      refine hs i o ?_ ho
      split at hi <;> omega

theorem sumQty_set (l : List Order) (n : Nat) (a : Order) (h : n < l.length) :
    sumQty (l.set n a) = sumQty l - (l.getD n ⟨"", 0⟩).qty + a.qty := by
  induction l generalizing n with
  | nil => simp at h
  | cons o l ih =>
    cases n with
    | zero => simp [sumQty]; ring
    | succ n =>
      simp only [List.set_cons_succ, sumQty, List.map_cons, List.sum_cons, List.getD_cons_succ]
      have := ih n (by simpa using h)
      simp only [sumQty] at this
      rw [this]
      ring

theorem totalTradeQty_append (tr : List Trade) (t : Trade) :
    totalTradeQty (tr ++ [t]) = totalTradeQty tr + t.qty := by
  simp [totalTradeQty]

/-- Quantity bookkeeping: on each side, the remaining book total plus the
total traded quantity is conserved by the loop. -/
theorem matchLoop_sum (price : ℚ) (st : MatchState) :
    sumQty (matchLoop price st).buys + totalTradeQty (matchLoop price st).trades
        = sumQty st.buys + totalTradeQty st.trades ∧
      sumQty (matchLoop price st).sells + totalTradeQty (matchLoop price st).trades
        = sumQty st.sells + totalTradeQty st.trades := by
  refine matchLoop_ind price (fun st r =>
      sumQty r.buys + totalTradeQty r.trades = sumQty st.buys + totalTradeQty st.trades ∧
        sumQty r.sells + totalTradeQty r.trades = sumQty st.sells + totalTradeQty st.trades)
    (fun st _ => ⟨rfl, rfl⟩) ?_ st
  intro st r hg ih
  obtain ⟨hg1, hg2⟩ := hg
  obtain ⟨ih1, ih2⟩ := ih
  simp only [matchStep] at ih1 ih2
  rw [sumQty_set _ _ _ hg1, totalTradeQty_append] at ih1
  rw [sumQty_set _ _ _ hg2, totalTradeQty_append] at ih2
  constructor
  · rw [ih1]; dsimp only; ring
  · rw [ih2]; dsimp only; ring

theorem map_agent_set (l : List Order) (n : Nat) (q : ℚ) :
    (l.set n ⟨(l.getD n ⟨"", 0⟩).agent, q⟩).map Order.agent = l.map Order.agent := by
  induction l generalizing n with
  | nil => simp
  | cons o l ih =>
    cases n with
    | zero => simp
    | succ n => simpa using ih n

theorem getD_mem_of_lt (l : List Order) (n : Nat) (h : n < l.length) :
    l[n]? = some (l.getD n ⟨"", 0⟩) := by
  rw [List.getElem?_eq_getElem h, List.getD_eq_getElem l ⟨"", 0⟩ h]

theorem matchStep_posFrom (price : ℚ) (st : MatchState)
    (hg1 : st.bi < st.buys.length) (hg2 : st.si < st.sells.length)
    (hb : ∀ i o, st.bi ≤ i → st.buys[i]? = some o → 0 < o.qty)
    (hs : ∀ i o, st.si ≤ i → st.sells[i]? = some o → 0 < o.qty) :
    (∀ i o, (matchStep price st).bi ≤ i → (matchStep price st).buys[i]? = some o → 0 < o.qty) ∧
      (∀ i o, (matchStep price st).si ≤ i → (matchStep price st).sells[i]? = some o →
        0 < o.qty) := by
  constructor
  · intro i o hi ho
    simp only [matchStep] at hi ho
    by_cases hib : i = st.bi
    · subst hib
      rw [List.getElem?_set_eq_of_lt _ hg1] at ho
      have hcur : ¬((st.buys.getD st.bi ⟨"", 0⟩).qty
          - min (st.buys.getD st.bi ⟨"", 0⟩).qty (st.sells.getD st.si ⟨"", 0⟩).qty < eps) := by
        intro hlt
        rw [if_pos hlt] at hi
        omega
      cases ho
      have := eps_pos
      simp only [not_lt] at hcur
      dsimp only
      linarith
    · rw [List.getElem?_set_ne (Ne.symm hib)] at ho
      refine hb i o ?_ ho
      rcases Nat.lt_or_ge st.bi i with h | h
      · omega
      · exfalso
        split at hi <;> omega
  · intro i o hi ho
    simp only [matchStep] at hi ho
    by_cases hib : i = st.si
    · subst hib
      rw [List.getElem?_set_eq_of_lt _ hg2] at ho
      have hcur : ¬((st.sells.getD st.si ⟨"", 0⟩).qty
          - min (st.buys.getD st.bi ⟨"", 0⟩).qty (st.sells.getD st.si ⟨"", 0⟩).qty < eps) := by
        intro hlt
        rw [if_pos hlt] at hi
        omega
      cases ho
      have := eps_pos
      simp only [not_lt] at hcur
      dsimp only
      linarith
    · rw [List.getElem?_set_ne (Ne.symm hib)] at ho
      refine hs i o ?_ ho
      rcases Nat.lt_or_ge st.si i with h | h
      · omega
      · exfalso
        split at hi <;> omega

/-- The loop only appends trades, and every appended trade has positive
quantity, carries the period price, and names a buyer from the buy book
and a seller from the sell book. -/
theorem matchLoop_trades (price : ℚ) (st : MatchState)
    (hb : ∀ i o, st.bi ≤ i → st.buys[i]? = some o → 0 < o.qty)
    (hs : ∀ i o, st.si ≤ i → st.sells[i]? = some o → 0 < o.qty) :
    ∃ new, (matchLoop price st).trades = st.trades ++ new ∧
      ∀ t ∈ new, 0 < t.qty ∧ t.price = price ∧
        t.buyer ∈ st.buys.map Order.agent ∧ t.seller ∈ st.sells.map Order.agent := by
  refine matchLoop_ind price (fun st r =>
      (∀ i o, st.bi ≤ i → st.buys[i]? = some o → 0 < o.qty) →
        (∀ i o, st.si ≤ i → st.sells[i]? = some o → 0 < o.qty) →
        ∃ new, r.trades = st.trades ++ new ∧
          ∀ t ∈ new, 0 < t.qty ∧ t.price = price ∧
            t.buyer ∈ st.buys.map Order.agent ∧ t.seller ∈ st.sells.map Order.agent)
    (fun st _ _ _ => ⟨[], by simp⟩) ?_ st hb hs
  intro st r hg ih hb hs
  obtain ⟨hg1, hg2⟩ := hg
  obtain ⟨hpb, hps⟩ := matchStep_posFrom price st hg1 hg2 hb hs
  obtain ⟨new, hnew, hprop⟩ := ih hpb hps
  have hbq : 0 < (st.buys.getD st.bi ⟨"", 0⟩).qty :=
    hb st.bi _ le_rfl (getD_mem_of_lt st.buys st.bi hg1)
  have hsq : 0 < (st.sells.getD st.si ⟨"", 0⟩).qty :=
    hs st.si _ le_rfl (getD_mem_of_lt st.sells st.si hg2)
  refine ⟨⟨(st.buys.getD st.bi ⟨"", 0⟩).agent, (st.sells.getD st.si ⟨"", 0⟩).agent,
      min (st.buys.getD st.bi ⟨"", 0⟩).qty (st.sells.getD st.si ⟨"", 0⟩).qty, price⟩ :: new,
    ?_, ?_⟩
  · rw [hnew]
    simp [matchStep]
  · intro t ht
    rcases List.mem_cons.mp ht with h | h
    · subst h
      refine ⟨lt_min hbq hsq, rfl, ?_, ?_⟩
      · exact List.mem_map.mpr ⟨_, List.getElem?_mem (getD_mem_of_lt st.buys st.bi hg1), rfl⟩
      · exact List.mem_map.mpr ⟨_, List.getElem?_mem (getD_mem_of_lt st.sells st.si hg2), rfl⟩
    · have := hprop t h
      refine ⟨this.1, this.2.1, ?_, ?_⟩
      · have hmap : (matchStep price st).buys.map Order.agent = st.buys.map Order.agent := by
          simp only [matchStep]
          exact map_agent_set st.buys st.bi _
        rw [← hmap]
        exact this.2.2.1
      · have hmap : (matchStep price st).sells.map Order.agent = st.sells.map Order.agent := by
          simp only [matchStep]
          exact map_agent_set st.sells st.si _
        rw [← hmap]
        exact this.2.2.2

/-- Each cursor advances at most one position per executed trade. -/
theorem matchLoop_count_lower (price : ℚ) (st : MatchState) :
    (matchLoop price st).bi + st.trades.length ≤ st.bi + (matchLoop price st).trades.length ∧
      (matchLoop price st).si + st.trades.length ≤ st.si + (matchLoop price st).trades.length := by
  refine matchLoop_ind price (fun st r =>
      r.bi + st.trades.length ≤ st.bi + r.trades.length ∧
        r.si + st.trades.length ≤ st.si + r.trades.length)
    (fun st _ => ⟨le_rfl, le_rfl⟩) ?_ st
  intro st r hg ih
  obtain ⟨ih1, ih2⟩ := ih
  simp only [matchStep, List.length_append, List.length_cons, List.length_nil] at ih1 ih2
  constructor
  · split at ih1 <;> omega
  · split at ih2 <;> omega

/-- Executed-trade count bound: while the guard holds the loop can run at
most `measure st - 1` further iterations beyond the first. -/
theorem matchLoop_count_upper (price : ℚ) (st : MatchState) :
    ((st.bi < st.buys.length ∧ st.si < st.sells.length) →
      (matchLoop price st).trades.length + 1 ≤ st.trades.length + measure st) ∧
      (¬(st.bi < st.buys.length ∧ st.si < st.sells.length) →
        (matchLoop price st).trades.length = st.trades.length) := by
  refine matchLoop_ind price (fun st r =>
      ((st.bi < st.buys.length ∧ st.si < st.sells.length) →
        r.trades.length + 1 ≤ st.trades.length + measure st) ∧
        (¬(st.bi < st.buys.length ∧ st.si < st.sells.length) →
          r.trades.length = st.trades.length))
    (fun st hstop => ⟨fun hg => absurd hg hstop, fun _ => rfl⟩) ?_ st
  intro st r hg ih
  obtain ⟨ihgo, ihs⟩ := ih
  refine ⟨fun _ => ?_, fun hstop => absurd hg hstop⟩
  have hlt := measure_matchStep_lt price st hg
  by_cases hg2 : (matchStep price st).bi < (matchStep price st).buys.length ∧
      (matchStep price st).si < (matchStep price st).sells.length
  · have h1 := ihgo hg2
    have h2 : (matchStep price st).trades.length = st.trades.length + 1 := by
      simp [matchStep]
    omega
  · have h1 := ihs hg2
    have h2 : (matchStep price st).trades.length = st.trades.length + 1 := by
      simp [matchStep]
    have hm2 : 2 ≤ measure st := by
      obtain ⟨hga, hgb⟩ := hg
      simp only [measure]
      omega
    omega

/-- The clearing price influences only ledgers and recorded trade prices:
two runs from states agreeing on books, cursors and trade keys agree on
final books, cursors and trade keys, whatever their prices and ledgers. -/
theorem matchLoop_strip (p1 p2 : ℚ) : ∀ (n : Nat) (st1 st2 : MatchState),
    measure st1 ≤ n →
    st1.buys = st2.buys → st1.sells = st2.sells → st1.bi = st2.bi → st1.si = st2.si →
    st1.trades.map tradeKey = st2.trades.map tradeKey →
    (matchLoop p1 st1).buys = (matchLoop p2 st2).buys ∧
      (matchLoop p1 st1).sells = (matchLoop p2 st2).sells ∧
      (matchLoop p1 st1).bi = (matchLoop p2 st2).bi ∧
      (matchLoop p1 st1).si = (matchLoop p2 st2).si ∧
      (matchLoop p1 st1).trades.map tradeKey = (matchLoop p2 st2).trades.map tradeKey := by
  intro n
  induction n with
  | zero =>
    intro st1 st2 hm hb hs hbi hsi htr
    have hstop1 : ¬(st1.bi < st1.buys.length ∧ st1.si < st1.sells.length) := by
      intro hg
      have := guard_measure_pos st1 hg
      omega
    have hstop2 : ¬(st2.bi < st2.buys.length ∧ st2.si < st2.sells.length) := by
      rw [← hb, ← hs, ← hbi, ← hsi]
      exact hstop1
    rw [matchLoop_stop p1 st1 hstop1, matchLoop_stop p2 st2 hstop2]
    exact ⟨hb, hs, hbi, hsi, htr⟩
  | succ n ih =>
    intro st1 st2 hm hb hs hbi hsi htr
    by_cases hg1 : st1.bi < st1.buys.length ∧ st1.si < st1.sells.length
    · have hg2 : st2.bi < st2.buys.length ∧ st2.si < st2.sells.length := by
        rw [← hb, ← hs, ← hbi, ← hsi]
        exact hg1
      rw [matchLoop_step p1 st1 hg1, matchLoop_step p2 st2 hg2]
      have hlt := measure_matchStep_lt p1 st1 hg1
      refine ih (matchStep p1 st1) (matchStep p2 st2) (by omega) ?_ ?_ ?_ ?_ ?_
      · simp only [matchStep, hb, hs, hbi, hsi]
      · simp only [matchStep, hb, hs, hbi, hsi]
      · simp only [matchStep, hb, hs, hbi, hsi]
      · simp only [matchStep, hb, hs, hbi, hsi]
      · simp only [matchStep, hb, hs, hbi, hsi, List.map_append, htr, List.map_cons,
          List.map_nil, tradeKey]
    · have hg2 : ¬(st2.bi < st2.buys.length ∧ st2.si < st2.sells.length) := by
        rw [← hb, ← hs, ← hbi, ← hsi]
        exact hg1
      rw [matchLoop_stop p1 st1 hg1, matchLoop_stop p2 st2 hg2]
      exact ⟨hb, hs, hbi, hsi, htr⟩

/-! ## Grid settlement -/

theorem agentQty_cons (a : String) (o : Order) (rest : List Order) :
    agentQty a (o :: rest)
      = (if o.agent = a ∧ 0 < o.qty then o.qty else 0) + agentQty a rest := by
  simp [agentQty]

theorem settleBuyRemainder_apply (tou : ℚ) :
    ∀ (rest : List Order) (f : String → ℚ) (a : String),
      settleBuyRemainder tou rest f a = f a - tou * agentQty a rest := by
  intro rest
  induction rest with
  | nil =>
    intro f a
    simp [settleBuyRemainder, agentQty]
  | cons o rest ih =>
    intro f a
    have hunfold : settleBuyRemainder tou (o :: rest) f
        = settleBuyRemainder tou rest
            (if 0 < o.qty then Function.update f o.agent (f o.agent - o.qty * tou) else f) := rfl
    rw [hunfold, ih, agentQty_cons]
    by_cases hq : 0 < o.qty
    · by_cases ha : o.agent = a
      · subst ha
      
        rw [if_pos hq, Function.update_same, if_pos ⟨rfl, hq⟩]
        ring
      · rw [if_pos hq, Function.update_noteq (Ne.symm ha), if_neg (by tauto)]
        ring
    · rw [if_neg hq, if_neg (by tauto)]
      ring

theorem settleSellRemainder_apply (fit : ℚ) :
    ∀ (rest : List Order) (f : String → ℚ) (a : String),
      settleSellRemainder fit rest f a = f a + fit * agentQty a rest := by
  intro rest
  induction rest with
  | nil =>
    intro f a
    simp [settleSellRemainder, agentQty]
  | cons o rest ih =>
    intro f a
    have hunfold : settleSellRemainder fit (o :: rest) f
        = settleSellRemainder fit rest
            (if 0 < o.qty then Function.update f o.agent (f o.agent + o.qty * fit) else f) := rfl
    rw [hunfold, ih, agentQty_cons]
    by_cases hq : 0 < o.qty
    · by_cases ha : o.agent = a
      · subst ha
        rw [if_pos hq, Function.update_same, if_pos ⟨rfl, hq⟩]
        ring
      · rw [if_pos hq, Function.update_noteq (Ne.symm ha), if_neg (by tauto)]
        ring
    · rw [if_neg hq, if_neg (by tauto)]
      ring

theorem agentQty_eq_zero (a : String) (rest : List Order)
    (h : ∀ o ∈ rest, ¬(0 < o.qty)) : agentQty a rest = 0 := by
  rw [agentQty]
  apply List.sum_eq_zero
  intro x hx
  obtain ⟨o, ho, rfl⟩ := List.mem_map.mp hx
  rw [if_neg (by tauto)]

/-- A period with no positive unmatched residual performs no settlement. -/
theorem settle_no_residual (tou fit : ℚ) (restB restS : List Order) (f : String → ℚ)
    (hb : ∀ o ∈ restB, ¬(0 < o.qty)) (hs : ∀ o ∈ restS, ¬(0 < o.qty)) :
    settleBuyRemainder tou restB f = f ∧ settleSellRemainder fit restS f = f := by
  constructor
  · funext a
    rw [settleBuyRemainder_apply, agentQty_eq_zero a restB hb]
    ring
  · funext a
    rw [settleSellRemainder_apply, agentQty_eq_zero a restS hs]
    ring

/-- Remaining quantities never fall below zero during matching. -/
theorem matchLoop_nonneg (price : ℚ) (st : MatchState)
    (hb : ∀ o ∈ st.buys, 0 ≤ o.qty) (hs : ∀ o ∈ st.sells, 0 ≤ o.qty) :
    (∀ o ∈ (matchLoop price st).buys, 0 ≤ o.qty) ∧
      (∀ o ∈ (matchLoop price st).sells, 0 ≤ o.qty) := by
  refine matchLoop_ind price (fun st r =>
      (∀ o ∈ st.buys, 0 ≤ o.qty) → (∀ o ∈ st.sells, 0 ≤ o.qty) →
        (∀ o ∈ r.buys, 0 ≤ o.qty) ∧ (∀ o ∈ r.sells, 0 ≤ o.qty))
    (fun st _ h1 h2 => ⟨h1, h2⟩) ?_ st hb hs
  intro st r hg ih hb hs
  apply ih
  · intro o ho
    simp only [matchStep] at ho
    rcases List.mem_or_eq_of_mem_set ho with h | h
    · exact hb o h
    · subst h
      dsimp only
      have := min_le_left (st.buys.getD st.bi ⟨"", 0⟩).qty (st.sells.getD st.si ⟨"", 0⟩).qty
      linarith
  · intro o ho
    simp only [matchStep] at ho
    rcases List.mem_or_eq_of_mem_set ho with h | h
    · exact hs o h
    · subst h
      dsimp only
      have := min_le_right (st.buys.getD st.bi ⟨"", 0⟩).qty (st.sells.getD st.si ⟨"", 0⟩).qty
      linarith

/-! ## Order-book construction -/

theorem buildBuyOrders_mem (agents : List (String × ℚ)) (o : Order)
    (h : o ∈ buildBuyOrders agents) : (o.agent, o.qty) ∈ agents ∧ 0 < o.qty := by
  obtain ⟨aq, haq, hf⟩ := List.mem_filterMap.mp h
  by_cases hq : 0 < aq.2
  · rw [if_pos hq] at hf
    cases hf
    exact ⟨haq, hq⟩
  · rw [if_neg hq] at hf
    cases hf

theorem buildSellOrders_mem (agents : List (String × ℚ)) (o : Order)
    (h : o ∈ buildSellOrders agents) :
    ∃ q, (o.agent, q) ∈ agents ∧ q < 0 ∧ o.qty = |q| := by
  obtain ⟨aq, haq, hf⟩ := List.mem_filterMap.mp h
  by_cases hq : 0 < aq.2
  · rw [if_pos hq] at hf
    cases hf
  · rw [if_neg hq] at hf
    by_cases hq2 : aq.2 < 0
    · rw [if_pos hq2] at hf
      cases hf
      exact ⟨aq.2, haq, hq2, rfl⟩
    · rw [if_neg hq2] at hf
      cases hf

theorem buildBuyOrders_pos (agents : List (String × ℚ)) :
    ∀ o ∈ buildBuyOrders agents, 0 < o.qty :=
  fun o ho => (buildBuyOrders_mem agents o ho).2

theorem buildSellOrders_pos (agents : List (String × ℚ)) :
    ∀ o ∈ buildSellOrders agents, 0 < o.qty := by
  intro o ho
  obtain ⟨q, _, hq, hqty⟩ := buildSellOrders_mem agents o ho
  rw [hqty]
  exact abs_pos.mpr (ne_of_lt hq)

theorem sum_books (agents : List (String × ℚ)) :
    sumQty (buildBuyOrders agents) + sumQty (buildSellOrders agents) = totalAbsNet agents := by
  induction agents with
  | nil => simp [sumQty, buildBuyOrders, buildSellOrders, totalAbsNet]
  | cons aq agents ih =>
    simp only [buildBuyOrders, buildSellOrders, totalAbsNet, List.filterMap_cons,
      List.map_cons, List.sum_cons] at ih ⊢
    rcases lt_trichotomy aq.2 0 with hq | hq | hq
    · rw [if_neg (by linarith), if_neg (by linarith), if_pos hq]
      simp only [sumQty, List.map_cons, List.sum_cons]
      simp only [buildBuyOrders, buildSellOrders, totalAbsNet, sumQty] at ih
      linarith
    · rw [if_neg (by simp [hq]), if_neg (by simp [hq]), if_neg (by simp [hq])]
      simp only [buildBuyOrders, buildSellOrders, totalAbsNet, sumQty] at ih
      rw [hq]
      simpa using ih
    · rw [if_pos hq, if_pos hq]
      simp only [sumQty, List.map_cons, List.sum_cons]
      simp only [buildBuyOrders, buildSellOrders, totalAbsNet, sumQty] at ih
      rw [abs_of_pos hq]
      linarith

/-! ## Per-trade ledger effect -/

theorem tradeFin_buyer (t : Trade) (f : String → ℚ) (hne : t.buyer ≠ t.seller) :
    tradeFin t f t.buyer = f t.buyer - t.qty * t.price := by
  rw [tradeFin, Function.update_noteq hne, Function.update_same]

theorem tradeFin_seller (t : Trade) (f : String → ℚ) (hne : t.buyer ≠ t.seller) :
    tradeFin t f t.seller = f t.seller + t.qty * t.price := by
  rw [tradeFin, Function.update_same, Function.update_noteq (Ne.symm hne)]

theorem tradeFin_other (t : Trade) (f : String → ℚ) (a : String)
    (hb : a ≠ t.buyer) (hs : a ≠ t.seller) : tradeFin t f a = f a := by
  rw [tradeFin, Function.update_noteq hs, Function.update_noteq hb]

theorem sum_single_support (keys : List String) (x : String) (c : ℚ) :
    (keys.map fun a => if a = x then c else 0).sum = (keys.count x : ℚ) * c := by
  induction keys with
  | nil => simp
  | cons k keys ih =>
    simp only [List.map_cons, List.sum_cons, ih, List.count_cons]
    by_cases h : k = x
    · subst h
      simp
      ring
    · rw [if_neg h, if_neg (by simpa using h)]
      push_cast
      ring

/-- The ledger deltas of one trade with distinct parties sum to zero over
any duplicate-free list of participants containing both. -/
theorem tradeFin_sum_zero (t : Trade) (f : String → ℚ) (keys : List String)
    (hnd : keys.Nodup) (hb : t.buyer ∈ keys) (hs : t.seller ∈ keys)
    (hne : t.buyer ≠ t.seller) :
    (keys.map fun a => tradeFin t f a - f a).sum = 0 := by
  have hpt : ∀ a, tradeFin t f a - f a
      = (if a = t.buyer then -(t.qty * t.price) else 0)
        + (if a = t.seller then t.qty * t.price else 0) := by
    intro a
    by_cases h1 : a = t.buyer
    · subst h1
      rw [if_pos rfl, if_neg (by exact fun h => hne h), tradeFin_buyer t f hne]
      ring
    · by_cases h2 : a = t.seller
      · subst h2
        rw [if_neg h1, if_pos rfl, tradeFin_seller t f hne]
        ring
      · rw [if_neg h1, if_neg h2, tradeFin_other t f a h1 h2]
        ring
  have : (keys.map fun a => tradeFin t f a - f a).sum
      = (keys.map fun a => if a = t.buyer then -(t.qty * t.price) else 0).sum
        + (keys.map fun a => if a = t.seller then t.qty * t.price else 0).sum := by
    rw [← List.sum_map_add]
    congr 1
    exact List.map_congr_left fun a _ => hpt a
  rw [this, sum_single_support, sum_single_support,
    List.count_eq_one_of_mem hnd hb, List.count_eq_one_of_mem hnd hs]
  push_cast
  ring

theorem nodup_keys_eq (l : List (String × ℚ)) (h : (l.map Prod.fst).Nodup)
    (a : String) (b1 b2 : ℚ) (h1 : (a, b1) ∈ l) (h2 : (a, b2) ∈ l) : b1 = b2 := by
  induction l with
  | nil => cases h1
  | cons p l ih =>
    simp only [List.map_cons, List.nodup_cons] at h
    rcases List.mem_cons.mp h1 with e1 | m1 <;> rcases List.mem_cons.mp h2 with e2 | m2
    · rw [← e1] at e2
      cases e2
      rfl
    · exfalso
      apply h.1
      rw [← e1]
      exact List.mem_map.mpr ⟨(a, b2), m2, rfl⟩
    · exfalso
      apply h.1
      rw [← e2]
      exact List.mem_map.mpr ⟨(a, b1), m1, rfl⟩
    · exact ih h.2 m1 m2

/-! ## Drop/take index bookkeeping and period-level glue -/

theorem mem_drop_getElem (l : List Order) (k : Nat) (o : Order) (h : o ∈ l.drop k) :
    ∃ i, k ≤ i ∧ l[i]? = some o := by
  obtain ⟨j, hj⟩ := List.mem_iff_getElem?.mp h
  rw [List.getElem?_drop] at hj
  exact ⟨k + j, Nat.le_add_right k j, hj⟩

theorem mem_take_getElem (l : List Order) (k : Nat) (o : Order) (h : o ∈ l.take k) :
    ∃ i, i < k ∧ l[i]? = some o := by
  obtain ⟨j, hj⟩ := List.mem_iff_getElem?.mp h
  have hjk : j < k := by
    have := List.getElem?_eq_some.mp hj
    obtain ⟨hlt, _⟩ := this
    simp only [List.length_take, lt_min_iff] at hlt
    exact hlt.1
  rw [List.getElem?_take, if_pos hjk] at hj
  exact ⟨j, hjk, hj⟩

theorem sumQty_take_drop (l : List Order) (k : Nat) :
    sumQty (l.take k) + sumQty (l.drop k) = sumQty l := by
  conv_rhs => rw [← List.take_append_drop k l]
  simp [sumQty]

theorem runPeriod_trades (alpha : ℚ) (inp : PeriodInput) :
    (runPeriod alpha inp).trades
      = (matchLoop (p2pPrice alpha inp.fit inp.tou) (initState inp)).trades := rfl

theorem runPeriod_buys (alpha : ℚ) (inp : PeriodInput) :
    (runPeriod alpha inp).buys
      = (matchLoop (p2pPrice alpha inp.fit inp.tou) (initState inp)).buys := rfl

theorem runPeriod_sells (alpha : ℚ) (inp : PeriodInput) :
    (runPeriod alpha inp).sells
      = (matchLoop (p2pPrice alpha inp.fit inp.tou) (initState inp)).sells := rfl

theorem runPeriod_bi (alpha : ℚ) (inp : PeriodInput) :
    (runPeriod alpha inp).bi
      = (matchLoop (p2pPrice alpha inp.fit inp.tou) (initState inp)).bi := rfl

theorem runPeriod_si (alpha : ℚ) (inp : PeriodInput) :
    (runPeriod alpha inp).si
      = (matchLoop (p2pPrice alpha inp.fit inp.tou) (initState inp)).si := rfl

theorem runPeriod_pfin (alpha : ℚ) (inp : PeriodInput) :
    (runPeriod alpha inp).pfin
      = (matchLoop (p2pPrice alpha inp.fit inp.tou) (initState inp)).fin := rfl

theorem runPeriod_fin (alpha : ℚ) (inp : PeriodInput) :
    (runPeriod alpha inp).fin
      = settleSellRemainder inp.fit
          ((runPeriod alpha inp).sells.drop (runPeriod alpha inp).si)
          (settleBuyRemainder inp.tou
            ((runPeriod alpha inp).buys.drop (runPeriod alpha inp).bi)
            (runPeriod alpha inp).pfin) := rfl

theorem initState_posFrom (inp : PeriodInput) :
    (∀ i o, (initState inp).bi ≤ i → (initState inp).buys[i]? = some o → 0 < o.qty) ∧
      (∀ i o, (initState inp).si ≤ i → (initState inp).sells[i]? = some o → 0 < o.qty) := by
  constructor
  · intro i o _ ho
    exact buildBuyOrders_pos inp.agents o (List.getElem?_mem ho)
  · intro i o _ ho
    exact buildSellOrders_pos inp.agents o (List.getElem?_mem ho)

/-- Closed form of the loop on one buy order and one sell order: exactly
one trade of the minimum quantity executes, then the loop stops. -/
theorem matchLoop_single (price : ℚ) (ba sa : String) (bq sq : ℚ) (f : String → ℚ) :
    matchLoop price ⟨[⟨ba, bq⟩], [⟨sa, sq⟩], 0, 0, f, []⟩
      = ⟨[⟨ba, bq - min bq sq⟩], [⟨sa, sq - min bq sq⟩],
          if bq - min bq sq < eps then 1 else 0,
          if sq - min bq sq < eps then 1 else 0,
          tradeFin ⟨ba, sa, min bq sq, price⟩ f,
          [⟨ba, sa, min bq sq, price⟩]⟩ := by
  have hadv : bq - min bq sq < eps ∨ sq - min bq sq < eps := by
    rcases le_total bq sq with h | h
    · left; rw [min_eq_left h]; simpa using eps_pos
    · right; rw [min_eq_right h]; simpa using eps_pos
  rw [matchLoop_step price _ (by simp)]
  have hstep : matchStep price ⟨[⟨ba, bq⟩], [⟨sa, sq⟩], 0, 0, f, []⟩
      = ⟨[⟨ba, bq - min bq sq⟩], [⟨sa, sq - min bq sq⟩],
          if bq - min bq sq < eps then 1 else 0,
          if sq - min bq sq < eps then 1 else 0,
          tradeFin ⟨ba, sa, min bq sq, price⟩ f,
          [⟨ba, sa, min bq sq, price⟩]⟩ := by
    simp [matchStep]
  rw [hstep]
  have hstop : ¬((⟨[⟨ba, bq - min bq sq⟩], [⟨sa, sq - min bq sq⟩],
      if bq - min bq sq < eps then 1 else 0,
      if sq - min bq sq < eps then 1 else 0,
      tradeFin ⟨ba, sa, min bq sq, price⟩ f,
      [⟨ba, sa, min bq sq, price⟩]⟩ : MatchState).bi
        < (⟨[⟨ba, bq - min bq sq⟩], [⟨sa, sq - min bq sq⟩],
          if bq - min bq sq < eps then 1 else 0,
          if sq - min bq sq < eps then 1 else 0,
          tradeFin ⟨ba, sa, min bq sq, price⟩ f,
          [⟨ba, sa, min bq sq, price⟩]⟩ : MatchState).buys.length ∧
      (⟨[⟨ba, bq - min bq sq⟩], [⟨sa, sq - min bq sq⟩],
        if bq - min bq sq < eps then 1 else 0,
        if sq - min bq sq < eps then 1 else 0,
        tradeFin ⟨ba, sa, min bq sq, price⟩ f,
        [⟨ba, sa, min bq sq, price⟩]⟩ : MatchState).si
          < (⟨[⟨ba, bq - min bq sq⟩], [⟨sa, sq - min bq sq⟩],
            if bq - min bq sq < eps then 1 else 0,
            if sq - min bq sq < eps then 1 else 0,
            tradeFin ⟨ba, sa, min bq sq, price⟩ f,
            [⟨ba, sa, min bq sq, price⟩]⟩ : MatchState).sells.length) := by
    rintro ⟨h1, h2⟩
    simp only [List.length_cons, List.length_nil] at h1 h2
    rcases hadv with h | h
    · rw [if_pos h] at h1
      omega
    · rw [if_pos h] at h2
      omega
  rw [matchLoop_stop price _ hstop]

theorem matchLoop_trades_ext (price : ℚ) (st : MatchState) :
    ∃ new, (matchLoop price st).trades = st.trades ++ new := by
  refine matchLoop_ind price (fun st r => ∃ new, r.trades = st.trades ++ new)
    (fun st _ => ⟨[], (List.append_nil st.trades).symm⟩) ?_ st
  intro st r hg ih
  obtain ⟨new, hnew⟩ := ih
  refine ⟨⟨(st.buys.getD st.bi ⟨"", 0⟩).agent, (st.sells.getD st.si ⟨"", 0⟩).agent,
      min (st.buys.getD st.bi ⟨"", 0⟩).qty (st.sells.getD st.si ⟨"", 0⟩).qty, price⟩ :: new, ?_⟩
  rw [hnew]
  simp [matchStep]

/-- Every trade of a period has positive quantity, carries the period
clearing price, and connects a booked buyer to a booked seller. -/
theorem runPeriod_trades_spec (alpha : ℚ) (inp : PeriodInput) :
    ∀ t ∈ (runPeriod alpha inp).trades,
      0 < t.qty ∧ t.price = p2pPrice alpha inp.fit inp.tou ∧
        t.buyer ∈ (buildBuyOrders inp.agents).map Order.agent ∧
        t.seller ∈ (buildSellOrders inp.agents).map Order.agent := by
  intro t ht
  rw [runPeriod_trades] at ht
  obtain ⟨new, hnew, hprop⟩ := matchLoop_trades (p2pPrice alpha inp.fit inp.tou)
    (initState inp) (initState_posFrom inp).1 (initState_posFrom inp).2
  rw [hnew] at ht
  exact hprop t (by simpa [initState] using ht)

theorem mem_buyAgents (agents : List (String × ℚ)) (a : String)
    (h : a ∈ (buildBuyOrders agents).map Order.agent) :
    ∃ q, (a, q) ∈ agents ∧ 0 < q := by
  obtain ⟨o, ho, rfl⟩ := List.mem_map.mp h
  have := buildBuyOrders_mem agents o ho
  exact ⟨o.qty, this.1, this.2⟩

theorem mem_sellAgents (agents : List (String × ℚ)) (a : String)
    (h : a ∈ (buildSellOrders agents).map Order.agent) :
    ∃ q, (a, q) ∈ agents ∧ q < 0 := by
  obtain ⟨o, ho, rfl⟩ := List.mem_map.mp h
  obtain ⟨q, hin, hq, _⟩ := buildSellOrders_mem agents o ho
  exact ⟨q, hin, hq⟩

/-! ## Claim C1 (corrected) -/

/-- C1, counterexample: the source has no rationality guard.  In a period
with `import_price = export_price = 0.2` and net quantities `A: +3`,
`B: -3`, the spec demands zero peer-to-peer trades, but the code executes
one P2P trade of quantity `3` (at price `0.2`). -/
theorem claim1_counterexample :
    ((2 : ℚ)/10 ≤ (2 : ℚ)/10) ∧
      (runPeriod (1/2) ⟨2/10, 2/10, [("A", 3), ("B", -3)]⟩).trades
        = [⟨"A", "B", 3, 2/10⟩] := by
  refine ⟨le_rfl, ?_⟩
  rw [runPeriod_trades]
  have hinit : initState ⟨2/10, 2/10, [("A", 3), ("B", -3)]⟩
      = ⟨[⟨"A", 3⟩], [⟨"B", 3⟩], 0, 0, fun _ => 0, []⟩ := by
    norm_num [initState, buildBuyOrders, buildSellOrders, List.filterMap_cons,
      List.filterMap_nil]
  rw [hinit, matchLoop_single]
  norm_num [p2pPrice]

/-- C1, amended: `run_double_auction` contains no grid-only branch.  Even
when `import_price <= export_price`, the FCFS matching loop runs at price
`export + alpha * (import - export)`, and any period whose buy and sell
books are both non-empty produces at least one P2P trade instead of the
spec's zero trades. -/
theorem claim1_theorem (alpha : ℚ) (inp : PeriodInput)
    (_hprice : inp.tou ≤ inp.fit)
    (hb : buildBuyOrders inp.agents ≠ []) (hs : buildSellOrders inp.agents ≠ []) :
    (runPeriod alpha inp).trades ≠ [] := by
  rw [runPeriod_trades]
  have hg : (initState inp).bi < (initState inp).buys.length ∧
      (initState inp).si < (initState inp).sells.length := by
    simp only [initState]
    exact ⟨List.length_pos.mpr hb, List.length_pos.mpr hs⟩
  rw [matchLoop_step _ _ hg]
  obtain ⟨new, hnew⟩ := matchLoop_trades_ext (p2pPrice alpha inp.fit inp.tou)
    (matchStep (p2pPrice alpha inp.fit inp.tou) (initState inp))
  rw [hnew]
  simp [matchStep, initState]

/-- C1, witness for the amended theorem at a concrete grid-only-priced
period: `fit = tou = 0.2`, `A: +3`, `B: -3`. -/
theorem claim1_witness :
    ((⟨2/10, 2/10, [("A", 3), ("B", -3)]⟩ : PeriodInput).tou
        ≤ (⟨2/10, 2/10, [("A", 3), ("B", -3)]⟩ : PeriodInput).fit) ∧
      buildBuyOrders [("A", 3), ("B", -3)] ≠ [] ∧
      buildSellOrders [("A", 3), ("B", -3)] ≠ [] ∧
      (runPeriod (1/2) ⟨2/10, 2/10, [("A", 3), ("B", -3)]⟩).trades ≠ [] := by
  have h1 : ((⟨2/10, 2/10, [("A", 3), ("B", -3)]⟩ : PeriodInput).tou
      ≤ (⟨2/10, 2/10, [("A", 3), ("B", -3)]⟩ : PeriodInput).fit) := le_rfl
  have h2 : buildBuyOrders [("A", 3), ("B", -3)] ≠ [] := by
    norm_num [buildBuyOrders, List.filterMap_cons, List.filterMap_nil]
  have h3 : buildSellOrders [("A", 3), ("B", -3)] ≠ [] := by
    norm_num [buildSellOrders, List.filterMap_cons, List.filterMap_nil]
  exact ⟨h1, h2, h3, claim1_theorem (1/2) ⟨2/10, 2/10, [("A", 3), ("B", -3)]⟩ h1 h2 h3⟩

/-! ## Claim C4 (confirmed) -/

/-- C4: every trade of a period carries the clearing price
`export_price + alpha * (import_price - export_price)`; when
`import_price > export_price` and `alpha` lies in `[0, 1]` this price is
within `[export_price, import_price]`, and it degenerates to the export
price at `alpha = 0` and to the import price at `alpha = 1`. -/
theorem claim4_theorem (alpha : ℚ) (inp : PeriodInput) (t : Trade)
    (ht : t ∈ (runPeriod alpha inp).trades) :
    t.price = p2pPrice alpha inp.fit inp.tou ∧
      p2pPrice alpha inp.fit inp.tou = inp.fit + alpha * (inp.tou - inp.fit) ∧
      (inp.fit < inp.tou → 0 ≤ alpha → alpha ≤ 1 →
        inp.fit ≤ t.price ∧ t.price ≤ inp.tou) ∧
      p2pPrice 0 inp.fit inp.tou = inp.fit ∧
      p2pPrice 1 inp.fit inp.tou = inp.tou := by
  have hp := (runPeriod_trades_spec alpha inp t ht).2.1
  refine ⟨hp, rfl, ?_, by simp [p2pPrice], by simp [p2pPrice]⟩
  intro hlt h0 h1
  rw [hp, p2pPrice]
  constructor
  · nlinarith
  · nlinarith

/-- C4, witness: the balanced scenario `fit = 0.1 < tou = 0.3`,
`alpha = 1/2`, quantities `A: +5`, `B: -5`; the single trade clears at
the midpoint `0.2`, inside `[0.1, 0.3]`. -/
theorem claim4_witness :
    (⟨"A", "B", 5, 1/5⟩ : Trade) ∈
        (runPeriod (1/2) ⟨1/10, 3/10, [("A", 5), ("B", -5)]⟩).trades ∧
      (⟨"A", "B", 5, 1/5⟩ : Trade).price = p2pPrice (1/2) (1/10) (3/10) ∧
      (1 : ℚ)/10 ≤ (⟨"A", "B", 5, 1/5⟩ : Trade).price ∧
      (⟨"A", "B", 5, 1/5⟩ : Trade).price ≤ (3 : ℚ)/10 ∧
      p2pPrice 0 (1/10) (3/10) = 1/10 ∧
      p2pPrice 1 (1/10) (3/10) = 3/10 := by
  have htr : (runPeriod (1/2) ⟨1/10, 3/10, [("A", 5), ("B", -5)]⟩).trades
      = [⟨"A", "B", 5, 1/5⟩] := by
    rw [runPeriod_trades]
    have hinit : initState ⟨1/10, 3/10, [("A", 5), ("B", -5)]⟩
        = ⟨[⟨"A", 5⟩], [⟨"B", 5⟩], 0, 0, fun _ => 0, []⟩ := by
      norm_num [initState, buildBuyOrders, buildSellOrders, List.filterMap_cons,
        List.filterMap_nil]
    rw [hinit, matchLoop_single]
    norm_num [p2pPrice]
  have ht : (⟨"A", "B", 5, 1/5⟩ : Trade) ∈
      (runPeriod (1/2) ⟨1/10, 3/10, [("A", 5), ("B", -5)]⟩).trades := by
    rw [htr]
    exact List.mem_singleton.mpr rfl
  have h := claim4_theorem (1/2) ⟨1/10, 3/10, [("A", 5), ("B", -5)]⟩ ⟨"A", "B", 5, 1/5⟩ ht
  have hb := h.2.2.1 (by norm_num) (by norm_num) (by norm_num)
  exact ⟨ht, h.1, hb.1, hb.2, h.2.2.2.1, h.2.2.2.2⟩

/-! ## Claim C2 (corrected) -/

/-- C2, amended: per-period quantity bookkeeping.  The sum of absolute
net quantities equals twice the total traded quantity, plus the
quantities still on the books at or past the cursors (these are exactly
the grid-settled quantities: each is strictly positive), plus the
residues of orders the cursors already passed; the spec's equation holds
only up to this last term, and every such passed residue lies in
`[0, eps)`. -/
theorem claim2_theorem (alpha : ℚ) (inp : PeriodInput) :
    totalAbsNet inp.agents
        = 2 * totalTradeQty (runPeriod alpha inp).trades
          + (sumQty ((runPeriod alpha inp).buys.drop (runPeriod alpha inp).bi)
            + sumQty ((runPeriod alpha inp).sells.drop (runPeriod alpha inp).si))
          + (sumQty ((runPeriod alpha inp).buys.take (runPeriod alpha inp).bi)
            + sumQty ((runPeriod alpha inp).sells.take (runPeriod alpha inp).si)) ∧
      (∀ o ∈ (runPeriod alpha inp).buys.drop (runPeriod alpha inp).bi, 0 < o.qty) ∧
      (∀ o ∈ (runPeriod alpha inp).sells.drop (runPeriod alpha inp).si, 0 < o.qty) ∧
      (∀ o ∈ (runPeriod alpha inp).buys.take (runPeriod alpha inp).bi,
        0 ≤ o.qty ∧ o.qty < eps) ∧
      (∀ o ∈ (runPeriod alpha inp).sells.take (runPeriod alpha inp).si,
        0 ≤ o.qty ∧ o.qty < eps) := by
  have hsum := matchLoop_sum (p2pPrice alpha inp.fit inp.tou) (initState inp)
  have hpos := matchLoop_posFrom (p2pPrice alpha inp.fit inp.tou) (initState inp)
    (initState_posFrom inp).1 (initState_posFrom inp).2
  have hsmall := matchLoop_smallBefore (p2pPrice alpha inp.fit inp.tou) (initState inp)
    (by intro i o hi ho; simp [initState] at hi) (by intro i o hi ho; simp [initState] at hi)
  rw [runPeriod_trades, runPeriod_buys, runPeriod_sells, runPeriod_bi, runPeriod_si]
  obtain ⟨hbsum, hssum⟩ := hsum
  have hinit_b : (initState inp).buys = buildBuyOrders inp.agents := rfl
  have hinit_s : (initState inp).sells = buildSellOrders inp.agents := rfl
  have hinit_t : totalTradeQty (initState inp).trades = 0 := rfl
  rw [hinit_b, hinit_t] at hbsum
  rw [hinit_s, hinit_t] at hssum
  have hkey := sum_books inp.agents
  have hbsplit := sumQty_take_drop
    (matchLoop (p2pPrice alpha inp.fit inp.tou) (initState inp)).buys
    (matchLoop (p2pPrice alpha inp.fit inp.tou) (initState inp)).bi
  have hssplit := sumQty_take_drop
    (matchLoop (p2pPrice alpha inp.fit inp.tou) (initState inp)).sells
    (matchLoop (p2pPrice alpha inp.fit inp.tou) (initState inp)).si
  refine ⟨by linarith, ?_, ?_, ?_, ?_⟩
  · intro o ho
    obtain ⟨i, hki, hio⟩ := mem_drop_getElem _ _ _ ho
    exact hpos.1 i o hki hio
  · intro o ho
    obtain ⟨i, hki, hio⟩ := mem_drop_getElem _ _ _ ho
    exact hpos.2 i o hki hio
  · intro o ho
    obtain ⟨i, hik, hio⟩ := mem_take_getElem _ _ _ ho
    exact hsmall.1 i o hik hio
  · intro o ho
    obtain ⟨i, hik, hio⟩ := mem_take_getElem _ _ _ ho
    exact hsmall.2 i o hik hio

/-- C2, counterexample to the claim as stated: with `A: +5` and
`B: -(5 - 1e-10)`, the single trade fills the buyer down to the residue
`1e-10`, which is below `eps`, so the buy cursor skips it; the residue is
neither traded nor settled and the spec's conservation equation fails by
`1e-10`. -/
theorem claim2_counterexample :
    totalAbsNet [("A", 5), ("B", -(5 - 1/10000000000))]
      ≠ 2 * totalTradeQty
          (runPeriod (1/2) ⟨1/10, 3/10, [("A", 5), ("B", -(5 - 1/10000000000))]⟩).trades
        + (sumQty ((runPeriod (1/2)
              ⟨1/10, 3/10, [("A", 5), ("B", -(5 - 1/10000000000))]⟩).buys.drop
            (runPeriod (1/2) ⟨1/10, 3/10, [("A", 5), ("B", -(5 - 1/10000000000))]⟩).bi)
          + sumQty ((runPeriod (1/2)
              ⟨1/10, 3/10, [("A", 5), ("B", -(5 - 1/10000000000))]⟩).sells.drop
            (runPeriod (1/2) ⟨1/10, 3/10, [("A", 5), ("B", -(5 - 1/10000000000))]⟩).si)) := by
  have habs : |(-(5 - 1/10000000000) : ℚ)| = 5 - 1/10000000000 := by
    rw [abs_neg, abs_of_pos] <;> norm_num
  have hinit : initState ⟨1/10, 3/10, [("A", 5), ("B", -(5 - 1/10000000000))]⟩
      = ⟨[⟨"A", 5⟩], [⟨"B", 5 - 1/10000000000⟩], 0, 0, fun _ => 0, []⟩ := by
    norm_num [initState, buildBuyOrders, buildSellOrders, List.filterMap_cons,
      List.filterMap_nil, habs]
  have hmin : min (5 : ℚ) (5 - 1/10000000000) = 5 - 1/10000000000 := by
    rw [min_eq_right] <;> norm_num
  have habs2 : |(49999999999 : ℚ)/10000000000| = 49999999999/10000000000 :=
    abs_of_pos (by norm_num)
  rw [runPeriod_trades, runPeriod_buys, runPeriod_sells, runPeriod_bi, runPeriod_si,
    hinit, matchLoop_single, hmin]
  norm_num [eps, totalAbsNet, totalTradeQty, sumQty, habs, habs2]

/-! ## Claim C3 (confirmed) -/

/-- C3: every emitted trade is a pure transfer.  With duplicate-free
participant columns, a trade's buyer and seller are distinct
participants; applying the trade's ledger update debits the buyer by
exactly `qty * price`, credits the seller by exactly `qty * price`,
leaves everyone else unchanged, and has zero net effect on the sum of
all participants' deltas. -/
theorem claim3_theorem (alpha : ℚ) (inp : PeriodInput) (t : Trade) (f : String → ℚ)
    (a : String) (hnd : (inp.agents.map Prod.fst).Nodup)
    (ht : t ∈ (runPeriod alpha inp).trades)
    (hab : a ≠ t.buyer) (has : a ≠ t.seller) :
    t.buyer ≠ t.seller ∧ 0 < t.qty ∧
      t.buyer ∈ inp.agents.map Prod.fst ∧ t.seller ∈ inp.agents.map Prod.fst ∧
      tradeFin t f t.buyer = f t.buyer - t.qty * t.price ∧
      tradeFin t f t.seller = f t.seller + t.qty * t.price ∧
      tradeFin t f a = f a ∧
      ((inp.agents.map Prod.fst).map fun x => tradeFin t f x - f x).sum = 0 := by
  obtain ⟨hqty, hprice, hbm, hsm⟩ := runPeriod_trades_spec alpha inp t ht
  obtain ⟨qb, hqb_mem, hqb_pos⟩ := mem_buyAgents inp.agents t.buyer hbm
  obtain ⟨qs, hqs_mem, hqs_neg⟩ := mem_sellAgents inp.agents t.seller hsm
  have hne : t.buyer ≠ t.seller := by
    intro he
    rw [he] at hqb_mem
    have heq := nodup_keys_eq inp.agents hnd t.seller qb qs hqb_mem hqs_mem
    rw [heq] at hqb_pos
    linarith
  have hbk : t.buyer ∈ inp.agents.map Prod.fst :=
    List.mem_map.mpr ⟨(t.buyer, qb), hqb_mem, rfl⟩
  have hsk : t.seller ∈ inp.agents.map Prod.fst :=
    List.mem_map.mpr ⟨(t.seller, qs), hqs_mem, rfl⟩
  exact ⟨hne, hqty, hbk, hsk, tradeFin_buyer t f hne, tradeFin_seller t f hne,
    tradeFin_other t f a hab has, tradeFin_sum_zero t f _ hnd hbk hsk hne⟩

/-- C3, witness: the balanced scenario with the ledger starting at zero;
the trade `A buys 5 from B at 0.2` debits `A` by `1`, credits `B` by `1`
and leaves the outsider `C` untouched. -/
theorem claim3_witness :
    ([("A", (5 : ℚ)), ("B", -5)].map Prod.fst).Nodup ∧
      (⟨"A", "B", 5, 1/5⟩ : Trade) ∈
        (runPeriod (1/2) ⟨1/10, 3/10, [("A", 5), ("B", -5)]⟩).trades ∧
      ("A" : String) ≠ "B" ∧
      tradeFin ⟨"A", "B", 5, 1/5⟩ zeroFin "A" = zeroFin "A" - 5 * (1/5) ∧
      tradeFin ⟨"A", "B", 5, 1/5⟩ zeroFin "B" = zeroFin "B" + 5 * (1/5) ∧
      tradeFin ⟨"A", "B", 5, 1/5⟩ zeroFin "C" = zeroFin "C" ∧
      (([("A", (5 : ℚ)), ("B", -5)].map Prod.fst).map
        fun x => tradeFin ⟨"A", "B", 5, 1/5⟩ zeroFin x - zeroFin x).sum = 0 := by
  have hnd : ([("A", (5 : ℚ)), ("B", -5)].map Prod.fst).Nodup := by
    simp [show ("A" : String) ≠ "B" from by decide]
  have ht : (⟨"A", "B", 5, 1/5⟩ : Trade) ∈
      (runPeriod (1/2) ⟨1/10, 3/10, [("A", 5), ("B", -5)]⟩).trades := by
    have htr : (runPeriod (1/2) ⟨1/10, 3/10, [("A", 5), ("B", -5)]⟩).trades
        = [⟨"A", "B", 5, 1/5⟩] := by
      rw [runPeriod_trades]
      have hinit : initState ⟨1/10, 3/10, [("A", 5), ("B", -5)]⟩
          = ⟨[⟨"A", 5⟩], [⟨"B", 5⟩], 0, 0, fun _ => 0, []⟩ := by
        norm_num [initState, buildBuyOrders, buildSellOrders, List.filterMap_cons,
          List.filterMap_nil]
      rw [hinit, matchLoop_single]
      norm_num [p2pPrice]
    rw [htr]
    exact List.mem_singleton.mpr rfl
  have h := claim3_theorem (1/2) ⟨1/10, 3/10, [("A", 5), ("B", -5)]⟩ ⟨"A", "B", 5, 1/5⟩
    zeroFin "C" hnd ht (by decide) (by decide)
  exact ⟨hnd, ht, h.1, h.2.2.2.2.1, h.2.2.2.2.2.1, h.2.2.2.2.2.2.1, h.2.2.2.2.2.2.2⟩

/-! ## Claim C5 (corrected) -/

/-- C5, amended: for a period with non-empty buy and sell queues the FCFS
loop emits at least `min(|buy_orders|, |sell_orders|) - 1` and at most
`|buy_orders| + |sell_orders| - 1` trades, and when it ends at least one
queue is fully exhausted; but both queues can also be exhausted when the
total volumes differ (by a sub-epsilon residue), so "both only when the
volumes are equal" does not hold. -/
theorem claim5_theorem (alpha : ℚ) (inp : PeriodInput)
    (hb : buildBuyOrders inp.agents ≠ []) (hs : buildSellOrders inp.agents ≠ []) :
    min (buildBuyOrders inp.agents).length (buildSellOrders inp.agents).length
        ≤ (runPeriod alpha inp).trades.length + 1 ∧
      (runPeriod alpha inp).trades.length + 1
        ≤ (buildBuyOrders inp.agents).length + (buildSellOrders inp.agents).length ∧
      ((runPeriod alpha inp).bi = (runPeriod alpha inp).buys.length ∨
        (runPeriod alpha inp).si = (runPeriod alpha inp).sells.length) := by
  rw [runPeriod_trades, runPeriod_bi, runPeriod_si, runPeriod_buys, runPeriod_sells]
  have hg : (initState inp).bi < (initState inp).buys.length ∧
      (initState inp).si < (initState inp).sells.length := by
    simp only [initState]
    exact ⟨List.length_pos.mpr hb, List.length_pos.mpr hs⟩
  have hupper := (matchLoop_count_upper (p2pPrice alpha inp.fit inp.tou) (initState inp)).1 hg
  have hlower := matchLoop_count_lower (p2pPrice alpha inp.fit inp.tou) (initState inp)
  have hexh := matchLoop_exhausts (p2pPrice alpha inp.fit inp.tou) (initState inp)
    (by simp [initState]) (by simp [initState])
  have hlen := matchLoop_length (p2pPrice alpha inp.fit inp.tou) (initState inp)
  have hmeas : measure (initState inp)
      = (buildBuyOrders inp.agents).length + (buildSellOrders inp.agents).length := by
    simp [measure, initState]
  have hinit_bi : (initState inp).bi = 0 := rfl
  have hinit_si : (initState inp).si = 0 := rfl
  have hinit_tr : (initState inp).trades.length = 0 := rfl
  have hlen_b : (initState inp).buys.length = (buildBuyOrders inp.agents).length := rfl
  have hlen_s : (initState inp).sells.length = (buildSellOrders inp.agents).length := rfl
  rw [hmeas, hinit_tr] at hupper
  rw [hinit_bi, hinit_si, hinit_tr] at hlower
  obtain ⟨hlb, hls⟩ := hlower
  obtain ⟨hlenb, hlens⟩ := hlen
  rw [hlen_b] at hlenb
  rw [hlen_s] at hlens
  refine ⟨?_, by omega, hexh⟩
  rcases hexh with h | h
  · rw [h, hlenb] at hlb
    omega
  · rw [h, hlens] at hls
    omega

/-- C5, counterexample to "exactly one queue is exhausted unless the
volumes are equal": with `A: +5` and `B: -(5 - 1e-10)` the volumes
differ, yet the single trade leaves the buyer residue `1e-10 < eps`, both
cursors advance, and both queues end fully exhausted. -/
theorem claim5_counterexample :
    sumQty (buildBuyOrders [("A", 5), ("B", -(5 - 1/10000000000))])
        ≠ sumQty (buildSellOrders [("A", 5), ("B", -(5 - 1/10000000000))]) ∧
      (runPeriod (1/2) ⟨1/10, 3/10, [("A", 5), ("B", -(5 - 1/10000000000))]⟩).buys.length = 1 ∧
      (runPeriod (1/2) ⟨1/10, 3/10, [("A", 5), ("B", -(5 - 1/10000000000))]⟩).sells.length = 1 ∧
      (runPeriod (1/2) ⟨1/10, 3/10, [("A", 5), ("B", -(5 - 1/10000000000))]⟩).bi = 1 ∧
      (runPeriod (1/2) ⟨1/10, 3/10, [("A", 5), ("B", -(5 - 1/10000000000))]⟩).si = 1 := by
  have habs : |(-(5 - 1/10000000000) : ℚ)| = 5 - 1/10000000000 := by
    rw [abs_neg, abs_of_pos]
    norm_num
  have hinit : initState ⟨1/10, 3/10, [("A", 5), ("B", -(5 - 1/10000000000))]⟩
      = ⟨[⟨"A", 5⟩], [⟨"B", 5 - 1/10000000000⟩], 0, 0, fun _ => 0, []⟩ := by
    norm_num [initState, buildBuyOrders, buildSellOrders, List.filterMap_cons,
      List.filterMap_nil, habs]
  have hmin : min (5 : ℚ) (5 - 1/10000000000) = 5 - 1/10000000000 := by
    rw [min_eq_right]
    norm_num
  have habs2 : |(49999999999 : ℚ)/10000000000| = 49999999999/10000000000 :=
    abs_of_pos (by norm_num)
  constructor
  · norm_num [buildBuyOrders, buildSellOrders, List.filterMap_cons, List.filterMap_nil,
      habs, habs2, sumQty]
  · rw [runPeriod_buys, runPeriod_sells, runPeriod_bi, runPeriod_si, hinit,
      matchLoop_single, hmin]
    norm_num [eps]

/-- C5, witness for the amended bounds at a concrete period: one buy
order against one sell order yields exactly one trade,
`min(1,1) <= 1 + 1`, `1 + 1 <= 1 + 1`, and the sell queue is exhausted. -/
theorem claim5_witness :
    buildBuyOrders [("A", (5 : ℚ)), ("B", -3)] ≠ [] ∧
      buildSellOrders [("A", (5 : ℚ)), ("B", -3)] ≠ [] ∧
      min (buildBuyOrders [("A", (5 : ℚ)), ("B", -3)]).length
          (buildSellOrders [("A", (5 : ℚ)), ("B", -3)]).length
        ≤ (runPeriod (1/2) ⟨1/10, 3/10, [("A", 5), ("B", -3)]⟩).trades.length + 1 ∧
      (runPeriod (1/2) ⟨1/10, 3/10, [("A", 5), ("B", -3)]⟩).trades.length + 1
        ≤ (buildBuyOrders [("A", (5 : ℚ)), ("B", -3)]).length
          + (buildSellOrders [("A", (5 : ℚ)), ("B", -3)]).length ∧
      ((runPeriod (1/2) ⟨1/10, 3/10, [("A", 5), ("B", -3)]⟩).bi
          = (runPeriod (1/2) ⟨1/10, 3/10, [("A", 5), ("B", -3)]⟩).buys.length ∨
        (runPeriod (1/2) ⟨1/10, 3/10, [("A", 5), ("B", -3)]⟩).si
          = (runPeriod (1/2) ⟨1/10, 3/10, [("A", 5), ("B", -3)]⟩).sells.length) := by
  have h2 : buildBuyOrders [("A", (5 : ℚ)), ("B", -3)] ≠ [] := by
    norm_num [buildBuyOrders, List.filterMap_cons, List.filterMap_nil]
  have h3 : buildSellOrders [("A", (5 : ℚ)), ("B", -3)] ≠ [] := by
    norm_num [buildSellOrders, List.filterMap_cons, List.filterMap_nil]
  have h := claim5_theorem (1/2) ⟨1/10, 3/10, [("A", 5), ("B", -3)]⟩ h2 h3
  exact ⟨h2, h3, h.1, h.2.1, h.2.2⟩

/-! ## Claim C6 (confirmed) -/

/-- C6: grid settlement.  After matching stops, every order at or past
its cursor with positive remaining quantity is settled: for each
participant the final ledger equals the post-match ledger minus
`import_price` times the positive buy residues attributed to them, plus
`export_price` times the positive sell residues; and a period with no
positive unmatched residual performs no settlement at all. -/
theorem claim6_theorem (alpha : ℚ) (inp : PeriodInput) (a : String) :
    (runPeriod alpha inp).fin a
        = (runPeriod alpha inp).pfin a
          - inp.tou * agentQty a
              ((runPeriod alpha inp).buys.drop (runPeriod alpha inp).bi)
          + inp.fit * agentQty a
              ((runPeriod alpha inp).sells.drop (runPeriod alpha inp).si) ∧
      ((∀ o ∈ (runPeriod alpha inp).buys.drop (runPeriod alpha inp).bi, ¬(0 < o.qty)) →
        (∀ o ∈ (runPeriod alpha inp).sells.drop (runPeriod alpha inp).si, ¬(0 < o.qty)) →
        (runPeriod alpha inp).fin = (runPeriod alpha inp).pfin) := by
  constructor
  · rw [runPeriod_fin, settleSellRemainder_apply, settleBuyRemainder_apply]
  · intro h1 h2
    rw [runPeriod_fin]
    obtain ⟨e1, e2⟩ := settle_no_residual inp.tou inp.fit
      ((runPeriod alpha inp).buys.drop (runPeriod alpha inp).bi)
      ((runPeriod alpha inp).sells.drop (runPeriod alpha inp).si)
      ((runPeriod alpha inp).pfin) h1 h2
    rw [e1, e2]

/-- C6, witness: `A: +5` against `B: -3` leaves buy residue `2`, settled
at the import price; and the balanced period `A: +5`, `B: -5` has zero
residual, so settlement changes nothing. -/
theorem claim6_witness :
    (runPeriod (1/2) ⟨1/10, 3/10, [("A", 5), ("B", -3)]⟩).fin "A"
        = (runPeriod (1/2) ⟨1/10, 3/10, [("A", 5), ("B", -3)]⟩).pfin "A"
          - (3/10) * agentQty "A"
              ((runPeriod (1/2) ⟨1/10, 3/10, [("A", 5), ("B", -3)]⟩).buys.drop
                (runPeriod (1/2) ⟨1/10, 3/10, [("A", 5), ("B", -3)]⟩).bi)
          + (1/10) * agentQty "A"
              ((runPeriod (1/2) ⟨1/10, 3/10, [("A", 5), ("B", -3)]⟩).sells.drop
                (runPeriod (1/2) ⟨1/10, 3/10, [("A", 5), ("B", -3)]⟩).si) ∧
      (runPeriod (1/2) ⟨1/10, 3/10, [("A", 5), ("B", -5)]⟩).fin
        = (runPeriod (1/2) ⟨1/10, 3/10, [("A", 5), ("B", -5)]⟩).pfin := by
  constructor
  · exact (claim6_theorem (1/2) ⟨1/10, 3/10, [("A", 5), ("B", -3)]⟩ "A").1
  · have hinit : initState ⟨1/10, 3/10, [("A", 5), ("B", -5)]⟩
        = ⟨[⟨"A", 5⟩], [⟨"B", 5⟩], 0, 0, fun _ => 0, []⟩ := by
      norm_num [initState, buildBuyOrders, buildSellOrders, List.filterMap_cons,
        List.filterMap_nil]
    have hbuys : (runPeriod (1/2) ⟨1/10, 3/10, [("A", 5), ("B", -5)]⟩).buys.drop
        (runPeriod (1/2) ⟨1/10, 3/10, [("A", 5), ("B", -5)]⟩).bi = [] := by
      rw [runPeriod_buys, runPeriod_bi, hinit, matchLoop_single]
      norm_num [eps]
    have hsells : (runPeriod (1/2) ⟨1/10, 3/10, [("A", 5), ("B", -5)]⟩).sells.drop
        (runPeriod (1/2) ⟨1/10, 3/10, [("A", 5), ("B", -5)]⟩).si = [] := by
      rw [runPeriod_sells, runPeriod_si, hinit, matchLoop_single]
      norm_num [eps]
    refine (claim6_theorem (1/2) ⟨1/10, 3/10, [("A", 5), ("B", -5)]⟩ "A").2 ?_ ?_
    · rw [hbuys]
      intro o ho
      cases ho
    · rw [hsells]
      intro o ho
      cases ho

/-! ## Claim C7 (confirmed) -/

/-- C7: totality and termination.  Whenever the loop guard holds, the
order on the min side of the fill drops below the `1e-9` threshold, so
at least one cursor advances, the loop measure strictly decreases, and
one unfolding of the `while` loop is sound; consequently every period's
computation ends after finitely many steps — in particular the number of
executed trades never exceeds the total number of orders. -/
theorem claim7_theorem (price : ℚ) (st : MatchState) (alpha : ℚ) (inp : PeriodInput)
    (hg1 : st.bi < st.buys.length) (hg2 : st.si < st.sells.length) :
    ((st.buys.getD st.bi ⟨"", 0⟩).qty
          - min (st.buys.getD st.bi ⟨"", 0⟩).qty (st.sells.getD st.si ⟨"", 0⟩).qty < eps ∨
        (st.sells.getD st.si ⟨"", 0⟩).qty
          - min (st.buys.getD st.bi ⟨"", 0⟩).qty (st.sells.getD st.si ⟨"", 0⟩).qty < eps) ∧
      st.bi + st.si + 1 ≤ (matchStep price st).bi + (matchStep price st).si ∧
      measure (matchStep price st) < measure st ∧
      matchLoop price st = matchLoop price (matchStep price st) ∧
      (runPeriod alpha inp).trades.length
        ≤ (buildBuyOrders inp.agents).length + (buildSellOrders inp.agents).length := by
  refine ⟨matchStep_advances st, ?_, measure_matchStep_lt price st ⟨hg1, hg2⟩,
    matchLoop_step price st ⟨hg1, hg2⟩, ?_⟩
  · have hadv := matchStep_advances st
    simp only [matchStep]
    rcases hadv with h | h
    · rw [if_pos h]
      split <;> omega
    · rw [if_pos h]
      split <;> omega
  · rw [runPeriod_trades]
    have hmeas : measure (initState inp)
        = (buildBuyOrders inp.agents).length + (buildSellOrders inp.agents).length := by
      simp [measure, initState]
    have hinit_tr : (initState inp).trades.length = 0 := rfl
    by_cases hg : (initState inp).bi < (initState inp).buys.length ∧
        (initState inp).si < (initState inp).sells.length
    · have h := (matchLoop_count_upper (p2pPrice alpha inp.fit inp.tou) (initState inp)).1 hg
      rw [hmeas, hinit_tr] at h
      omega
    · have h := (matchLoop_count_upper (p2pPrice alpha inp.fit inp.tou) (initState inp)).2 hg
      rw [hinit_tr] at h
      omega

/-- C7, witness at a one-order-per-side state and the balanced period. -/
theorem claim7_witness :
    ((⟨[⟨"A", 5⟩], [⟨"B", 5⟩], 0, 0, zeroFin, []⟩ : MatchState).bi
        < (⟨[⟨"A", 5⟩], [⟨"B", 5⟩], 0, 0, zeroFin, []⟩ : MatchState).buys.length) ∧
      ((⟨[⟨"A", 5⟩], [⟨"B", 5⟩], 0, 0, zeroFin, []⟩ : MatchState).si
        < (⟨[⟨"A", 5⟩], [⟨"B", 5⟩], 0, 0, zeroFin, []⟩ : MatchState).sells.length) ∧
      measure (matchStep (1/5) ⟨[⟨"A", 5⟩], [⟨"B", 5⟩], 0, 0, zeroFin, []⟩)
        < measure ⟨[⟨"A", 5⟩], [⟨"B", 5⟩], 0, 0, zeroFin, []⟩ ∧
      (runPeriod (1/2) ⟨1/10, 3/10, [("A", 5), ("B", -5)]⟩).trades.length
        ≤ (buildBuyOrders [("A", (5 : ℚ)), ("B", -5)]).length
          + (buildSellOrders [("A", (5 : ℚ)), ("B", -5)]).length := by
  have hg1 : (⟨[⟨"A", 5⟩], [⟨"B", 5⟩], 0, 0, zeroFin, []⟩ : MatchState).bi
      < (⟨[⟨"A", 5⟩], [⟨"B", 5⟩], 0, 0, zeroFin, []⟩ : MatchState).buys.length := by
    simp
  have hg2 : (⟨[⟨"A", 5⟩], [⟨"B", 5⟩], 0, 0, zeroFin, []⟩ : MatchState).si
      < (⟨[⟨"A", 5⟩], [⟨"B", 5⟩], 0, 0, zeroFin, []⟩ : MatchState).sells.length := by
    simp
  have h := claim7_theorem (1/5) ⟨[⟨"A", 5⟩], [⟨"B", 5⟩], 0, 0, zeroFin, []⟩
    (1/2) ⟨1/10, 3/10, [("A", 5), ("B", -5)]⟩ hg1 hg2
  exact ⟨hg1, hg2, h.2.2.1, h.2.2.2.2⟩

/-! ## Claim C8 (confirmed) -/

/-- C8: remaining quantities never go negative.  Each fill subtracts
`min(buyer remaining, seller remaining)`, so a single step keeps every
remaining quantity non-negative, the whole loop preserves
non-negativity, and in every period the final books are non-negative. -/
theorem claim8_theorem (price : ℚ) (st : MatchState) (alpha : ℚ) (inp : PeriodInput)
    (hb : ∀ o ∈ st.buys, 0 ≤ o.qty) (hs : ∀ o ∈ st.sells, 0 ≤ o.qty) :
    (∀ o ∈ (matchStep price st).buys, 0 ≤ o.qty) ∧
      (∀ o ∈ (matchStep price st).sells, 0 ≤ o.qty) ∧
      (∀ o ∈ (matchLoop price st).buys, 0 ≤ o.qty) ∧
      (∀ o ∈ (matchLoop price st).sells, 0 ≤ o.qty) ∧
      (∀ o ∈ (runPeriod alpha inp).buys, 0 ≤ o.qty) ∧
      (∀ o ∈ (runPeriod alpha inp).sells, 0 ≤ o.qty) := by
  have hloop := matchLoop_nonneg price st hb hs
  have hper := matchLoop_nonneg (p2pPrice alpha inp.fit inp.tou) (initState inp)
    (fun o ho => le_of_lt (buildBuyOrders_pos inp.agents o ho))
    (fun o ho => le_of_lt (buildSellOrders_pos inp.agents o ho))
  refine ⟨?_, ?_, hloop.1, hloop.2, ?_, ?_⟩
  · intro o ho
    simp only [matchStep] at ho
    rcases List.mem_or_eq_of_mem_set ho with h | h
    · exact hb o h
    · subst h
      dsimp only
      have := min_le_left (st.buys.getD st.bi ⟨"", 0⟩).qty (st.sells.getD st.si ⟨"", 0⟩).qty
      linarith
  · intro o ho
    simp only [matchStep] at ho
    rcases List.mem_or_eq_of_mem_set ho with h | h
    · exact hs o h
    · subst h
      dsimp only
      have := min_le_right (st.buys.getD st.bi ⟨"", 0⟩).qty (st.sells.getD st.si ⟨"", 0⟩).qty
      linarith
  · rw [runPeriod_buys]
    exact hper.1
  · rw [runPeriod_sells]
    exact hper.2

/-- C8, witness at a concrete state and period. -/
theorem claim8_witness :
    (∀ o ∈ (⟨[⟨"A", 5⟩], [⟨"B", 3⟩], 0, 0, zeroFin, []⟩ : MatchState).buys, 0 ≤ o.qty) ∧
      (∀ o ∈ (⟨[⟨"A", 5⟩], [⟨"B", 3⟩], 0, 0, zeroFin, []⟩ : MatchState).sells, 0 ≤ o.qty) ∧
      (∀ o ∈ (matchLoop (1/5) ⟨[⟨"A", 5⟩], [⟨"B", 3⟩], 0, 0, zeroFin, []⟩).buys,
        0 ≤ o.qty) ∧
      (∀ o ∈ (runPeriod (1/2) ⟨1/10, 3/10, [("A", 5), ("B", -3)]⟩).buys, 0 ≤ o.qty) := by
  have hb : ∀ o ∈ (⟨[⟨"A", 5⟩], [⟨"B", 3⟩], 0, 0, zeroFin, []⟩ : MatchState).buys,
      0 ≤ o.qty := by
    intro o ho
    simp only [List.mem_singleton] at ho
    subst ho
    norm_num
  have hs : ∀ o ∈ (⟨[⟨"A", 5⟩], [⟨"B", 3⟩], 0, 0, zeroFin, []⟩ : MatchState).sells,
      0 ≤ o.qty := by
    intro o ho
    simp only [List.mem_singleton] at ho
    subst ho
    norm_num
  have h := claim8_theorem (1/5) ⟨[⟨"A", 5⟩], [⟨"B", 3⟩], 0, 0, zeroFin, []⟩
    (1/2) ⟨1/10, 3/10, [("A", 5), ("B", -3)]⟩ hb hs
  exact ⟨hb, hs, h.2.2.1, h.2.2.2.2.1⟩

/-! ## Claim C9 (confirmed) -/

/-- C9: alpha-independence of matching.  Two runs of the same period
under different alphas produce the same `(buyer, seller, quantity)`
sequence, identical final books and cursors, and identical grid-settled
quantities per participant; alpha affects only prices and ledgers. -/
theorem claim9_theorem (a1 a2 : ℚ) (inp : PeriodInput) :
    (runPeriod a1 inp).trades.map tradeKey = (runPeriod a2 inp).trades.map tradeKey ∧
      (runPeriod a1 inp).buys = (runPeriod a2 inp).buys ∧
      (runPeriod a1 inp).sells = (runPeriod a2 inp).sells ∧
      (runPeriod a1 inp).bi = (runPeriod a2 inp).bi ∧
      (runPeriod a1 inp).si = (runPeriod a2 inp).si ∧
      (∀ a : String,
        agentQty a ((runPeriod a1 inp).buys.drop (runPeriod a1 inp).bi)
            = agentQty a ((runPeriod a2 inp).buys.drop (runPeriod a2 inp).bi) ∧
          agentQty a ((runPeriod a1 inp).sells.drop (runPeriod a1 inp).si)
            = agentQty a ((runPeriod a2 inp).sells.drop (runPeriod a2 inp).si)) := by
  have h := matchLoop_strip (p2pPrice a1 inp.fit inp.tou) (p2pPrice a2 inp.fit inp.tou)
    (measure (initState inp)) (initState inp) (initState inp) le_rfl rfl rfl rfl rfl rfl
  obtain ⟨hb, hs, hbi, hsi, htr⟩ := h
  rw [runPeriod_trades, runPeriod_trades, runPeriod_buys, runPeriod_buys,
    runPeriod_sells, runPeriod_sells, runPeriod_bi, runPeriod_bi,
    runPeriod_si, runPeriod_si]
  refine ⟨htr, hb, hs, hbi, hsi, fun a => ?_⟩
  rw [hb, hs, hbi, hsi]
  exact ⟨rfl, rfl⟩

/-! ## Claim C10 (confirmed) -/

/-- C10: sub-epsilon residues are silently dropped.  If a fill leaves the
order at a cursor with remaining quantity strictly between `0` and
`eps`, that cursor advances past the order; the order keeps exactly that
residual quantity in the final book, and it sits strictly before the
final cursor, so the grid settlement pass (which starts at the final
cursor) never touches it, and no later trade reduces it. -/
theorem claim10_theorem (price : ℚ) (st : MatchState)
    (hg1 : st.bi < st.buys.length) (hg2 : st.si < st.sells.length) :
    (0 < (st.buys.getD st.bi ⟨"", 0⟩).qty
          - min (st.buys.getD st.bi ⟨"", 0⟩).qty (st.sells.getD st.si ⟨"", 0⟩).qty →
      (st.buys.getD st.bi ⟨"", 0⟩).qty
          - min (st.buys.getD st.bi ⟨"", 0⟩).qty (st.sells.getD st.si ⟨"", 0⟩).qty < eps →
      (matchStep price st).bi = st.bi + 1 ∧
        st.bi < (matchLoop price st).bi ∧
        (matchLoop price st).buys[st.bi]?
          = some ⟨(st.buys.getD st.bi ⟨"", 0⟩).agent,
              (st.buys.getD st.bi ⟨"", 0⟩).qty
                - min (st.buys.getD st.bi ⟨"", 0⟩).qty (st.sells.getD st.si ⟨"", 0⟩).qty⟩) ∧
    (0 < (st.sells.getD st.si ⟨"", 0⟩).qty
          - min (st.buys.getD st.bi ⟨"", 0⟩).qty (st.sells.getD st.si ⟨"", 0⟩).qty →
      (st.sells.getD st.si ⟨"", 0⟩).qty
          - min (st.buys.getD st.bi ⟨"", 0⟩).qty (st.sells.getD st.si ⟨"", 0⟩).qty < eps →
      (matchStep price st).si = st.si + 1 ∧
        st.si < (matchLoop price st).si ∧
        (matchLoop price st).sells[st.si]?
          = some ⟨(st.sells.getD st.si ⟨"", 0⟩).agent,
              (st.sells.getD st.si ⟨"", 0⟩).qty
                - min (st.buys.getD st.bi ⟨"", 0⟩).qty (st.sells.getD st.si ⟨"", 0⟩).qty⟩) := by
  have hloop := matchLoop_step price st ⟨hg1, hg2⟩
  constructor
  · intro hres hlt
    have hbi : (matchStep price st).bi = st.bi + 1 := by
      simp only [matchStep]
      rw [if_pos hlt]
    have hmono := matchLoop_cursor_mono price (matchStep price st)
    have hcursor : st.bi < (matchLoop price st).bi := by
      rw [hloop]
      omega
    have hpre := (matchLoop_stable_before price (matchStep price st)).1 st.bi (by omega)
    refine ⟨hbi, hcursor, ?_⟩
    rw [hloop, hpre]
    simp only [matchStep]
    exact List.getElem?_set_eq_of_lt _ hg1
  · intro hres hlt
    have hsi : (matchStep price st).si = st.si + 1 := by
      simp only [matchStep]
      rw [if_pos hlt]
    have hmono := matchLoop_cursor_mono price (matchStep price st)
    have hcursor : st.si < (matchLoop price st).si := by
      rw [hloop]
      omega
    have hpre := (matchLoop_stable_before price (matchStep price st)).2 st.si (by omega)
    refine ⟨hsi, hcursor, ?_⟩
    rw [hloop, hpre]
    simp only [matchStep]
    exact List.getElem?_set_eq_of_lt _ hg2

/-- C10, witness: buyer `A: 5` against seller `B: 5 - 1e-10`; the fill
leaves `A` with residue `1e-10` strictly between `0` and `eps`, the buy
cursor advances past it, and the final book still holds the residue
strictly before the final cursor. -/
theorem claim10_witness :
    ((⟨[⟨"A", 5⟩], [⟨"B", 5 - 1/10000000000⟩], 0, 0, zeroFin, []⟩ : MatchState).bi
        < (⟨[⟨"A", 5⟩], [⟨"B", 5 - 1/10000000000⟩], 0, 0, zeroFin,
            []⟩ : MatchState).buys.length) ∧
      (0 : ℚ) < 5 - min (5 : ℚ) (5 - 1/10000000000) ∧
      (5 : ℚ) - min (5 : ℚ) (5 - 1/10000000000) < eps ∧
      (matchStep (1/5) ⟨[⟨"A", 5⟩], [⟨"B", 5 - 1/10000000000⟩], 0, 0, zeroFin, []⟩).bi
        = 1 ∧
      0 < (matchLoop (1/5)
          ⟨[⟨"A", 5⟩], [⟨"B", 5 - 1/10000000000⟩], 0, 0, zeroFin, []⟩).bi ∧
      (matchLoop (1/5)
          ⟨[⟨"A", 5⟩], [⟨"B", 5 - 1/10000000000⟩], 0, 0, zeroFin, []⟩).buys[0]?
        = some ⟨"A", 5 - min (5 : ℚ) (5 - 1/10000000000)⟩ := by
  have hmin : min (5 : ℚ) (5 - 1/10000000000) = 5 - 1/10000000000 := by
    rw [min_eq_right]
    norm_num
  have hg1 : (⟨[⟨"A", 5⟩], [⟨"B", 5 - 1/10000000000⟩], 0, 0, zeroFin,
      []⟩ : MatchState).bi
      < (⟨[⟨"A", 5⟩], [⟨"B", 5 - 1/10000000000⟩], 0, 0, zeroFin,
          []⟩ : MatchState).buys.length := by simp
  have hg2 : (⟨[⟨"A", 5⟩], [⟨"B", 5 - 1/10000000000⟩], 0, 0, zeroFin,
      []⟩ : MatchState).si
      < (⟨[⟨"A", 5⟩], [⟨"B", 5 - 1/10000000000⟩], 0, 0, zeroFin,
          []⟩ : MatchState).sells.length := by simp
  have hres : (0 : ℚ) < 5 - min (5 : ℚ) (5 - 1/10000000000) := by
    rw [hmin]
    norm_num
  have hlt : (5 : ℚ) - min (5 : ℚ) (5 - 1/10000000000) < eps := by
    rw [hmin]
    norm_num [eps]
  have h := (claim10_theorem (1/5)
    ⟨[⟨"A", 5⟩], [⟨"B", 5 - 1/10000000000⟩], 0, 0, zeroFin, []⟩ hg1 hg2).1 hres hlt
  exact ⟨hg1, hres, hlt, h.1, h.2.1, h.2.2⟩

/-- C2, witness instantiation at the residual period `A: +5`, `B: -3`. -/
theorem claim2_witness :
    totalAbsNet [("A", (5 : ℚ)), ("B", -3)]
        = 2 * totalTradeQty (runPeriod (1/2) ⟨1/10, 3/10, [("A", 5), ("B", -3)]⟩).trades
          + (sumQty ((runPeriod (1/2) ⟨1/10, 3/10, [("A", 5), ("B", -3)]⟩).buys.drop
              (runPeriod (1/2) ⟨1/10, 3/10, [("A", 5), ("B", -3)]⟩).bi)
            + sumQty ((runPeriod (1/2) ⟨1/10, 3/10, [("A", 5), ("B", -3)]⟩).sells.drop
              (runPeriod (1/2) ⟨1/10, 3/10, [("A", 5), ("B", -3)]⟩).si))
          + (sumQty ((runPeriod (1/2) ⟨1/10, 3/10, [("A", 5), ("B", -3)]⟩).buys.take
              (runPeriod (1/2) ⟨1/10, 3/10, [("A", 5), ("B", -3)]⟩).bi)
            + sumQty ((runPeriod (1/2) ⟨1/10, 3/10, [("A", 5), ("B", -3)]⟩).sells.take
              (runPeriod (1/2) ⟨1/10, 3/10, [("A", 5), ("B", -3)]⟩).si)) :=
  (claim2_theorem (1/2) ⟨1/10, 3/10, [("A", 5), ("B", -3)]⟩).1

/-- C9, witness instantiation: `alpha = 0` versus `alpha = 1` on the
residual period. -/
theorem claim9_witness :
    (runPeriod 0 ⟨1/10, 3/10, [("A", 5), ("B", -3)]⟩).trades.map tradeKey
        = (runPeriod 1 ⟨1/10, 3/10, [("A", 5), ("B", -3)]⟩).trades.map tradeKey ∧
      (runPeriod 0 ⟨1/10, 3/10, [("A", 5), ("B", -3)]⟩).buys
        = (runPeriod 1 ⟨1/10, 3/10, [("A", 5), ("B", -3)]⟩).buys ∧
      agentQty "A" ((runPeriod 0 ⟨1/10, 3/10, [("A", 5), ("B", -3)]⟩).buys.drop
          (runPeriod 0 ⟨1/10, 3/10, [("A", 5), ("B", -3)]⟩).bi)
        = agentQty "A" ((runPeriod 1 ⟨1/10, 3/10, [("A", 5), ("B", -3)]⟩).buys.drop
          (runPeriod 1 ⟨1/10, 3/10, [("A", 5), ("B", -3)]⟩).bi) := by
  have h := claim9_theorem 0 1 ⟨1/10, 3/10, [("A", 5), ("B", -3)]⟩
  exact ⟨h.1, h.2.1, (h.2.2.2.2.2 "A").1⟩

end P2P
